import Mathlib

/-!
A formal model of the tabular-preprocessing module `src/modules/structured.py`.

The module operates on pandas data frames.  We model a data frame as an
ordered list of named, typed columns; each column holds a list of values
(one per row).  Missing data (`NaN` / `NaT`) is the dedicated value
`Value.na`.  Numeric data is modelled by rationals, which covers the
integers produced by categorical codes and the (possibly half-integral)
medians produced by interpolation.

Pandas behaviours relevant to the modelled functions:
  * `df.copy()` — functional translation: every function consumes and
    returns values, so the copy is implicit.
  * `df[name] = series` replaces the column `name` in place if it exists,
    otherwise appends it at the end.
  * `df.drop(names, axis=1)` raises when a name is absent; we model this
    with `Option`, `none` standing for the raised error.
  * `df.join(other)` raises when column names overlap; again `none`.
  * `Series.astype('category')` assigns the sorted list of distinct
    observed string values as the categorical domain.
  * `.cat.codes` is the zero-based index of the value in the categorical
    domain, and `-1` for a missing entry.
  * `pd.get_dummies` produces one indicator column per category of the
    categorical domain; a missing entry yields `0` in every indicator.
  * `Series.median()` ignores missing entries and interpolates the two
    middle elements of the sorted values (`NaN`, modelled `none`, when
    every entry is missing).
  * `pandas.api.types.is_numeric_dtype` is true for boolean columns as
    well as for properly numeric ones.
  * String-to-datetime parsing (`astype(np.datetime64)`) is performed by
    the external library; columns that would need it are outside the
    model's domain (`none`), and the modelled claims only concern columns
    that already hold datetime values.
-/

/-- The fields a pandas `.dt` accessor exposes, for one datetime value. -/
structure DateVal where
  year : Int
  month : Int
  week : Int
  day : Int
  dayofweek : Int
  dayofyear : Int
  is_month_end : Bool
  is_month_start : Bool
  is_quarter_end : Bool
  is_quarter_start : Bool
  is_year_end : Bool
  is_year_start : Bool
  hour : Int
  minute : Int
  second : Int
deriving DecidableEq, Repr

/-- A cell of a data frame.  `na` models pandas missing data (NaN / NaT). -/
inductive Value where
  | str (s : String)
  | num (q : ℚ)
  | bool (b : Bool)
  | date (d : DateVal)
  | na
deriving DecidableEq, Repr

/-- The declared type of a column.  A categorical dtype carries its
category list (the categorical domain) and its ordered flag. -/
inductive Dtype where
  | text
  | numeric
  | boolean
  | datetime
  | categorical (cats : List String) (ordered : Bool)
deriving DecidableEq, Repr

structure Column where
  name : String
  dtype : Dtype
  vals : List Value
deriving DecidableEq, Repr

structure DataFrame where
  cols : List Column
deriving DecidableEq, Repr

/-- First column carrying the given name (pandas label lookup). -/
def findCol (f : String) : List Column → Option Column
  | [] => none
  | c :: rest => if c.name = f then some c else findCol f rest

def DataFrame.getCol (df : DataFrame) (f : String) : Option Column :=
  findCol f df.cols

def DataFrame.colNames (df : DataFrame) : List String :=
  df.cols.map (·.name)

/-- Replace every column whose name matches `c.name` by `c`. -/
def replaceCol (c : Column) : List Column → List Column
  | [] => []
  | x :: rest => (if x.name = c.name then c else x) :: replaceCol c rest

/-- `df[name] = series`: replace the column in place if present, append
it at the end otherwise. -/
def DataFrame.setCol (df : DataFrame) (c : Column) : DataFrame :=
  if (findCol c.name df.cols).isSome then ⟨replaceCol c df.cols⟩
  else ⟨df.cols ++ [c]⟩

/-- `df.drop(features, axis=1)`: `none` models the error pandas raises
when one of the names is absent. -/
def DataFrame.dropAll (df : DataFrame) (features : List String) : Option DataFrame :=
  if ∀ f ∈ features, f ∈ df.colNames then
    some ⟨df.cols.filter (fun c => decide (c.name ∉ features))⟩
  else none

/-- `df.drop(feature, axis=1)` at a point where the column is known to be
present (the code accessed it just before), so no error can occur. -/
def DataFrame.dropCol (df : DataFrame) (f : String) : DataFrame :=
  ⟨df.cols.filter (fun c => decide (c.name ≠ f))⟩

/-- `df.join(other)`: `none` models the error pandas raises when the
joined column names overlap the existing ones. -/
def DataFrame.join (df : DataFrame) (new : List Column) : Option DataFrame :=
  if ∀ c ∈ new, c.name ∉ df.colNames then some ⟨df.cols ++ new⟩ else none

/-- Every column holds `n` rows. -/
def HasHeight (df : DataFrame) (n : Nat) : Prop :=
  ∀ c ∈ df.cols, c.vals.length = n

/-- Association-list lookup (first match), for the returned mappers. -/
def lookupStr {α : Type} (k : String) : List (String × α) → Option α
  | [] => none
  | (k', v) :: rest => if k' = k then some v else lookupStr k rest

/-! ### `convert_to_categorical` -/

/-- The string values observed in a column, in row order. -/
def stringVals (vals : List Value) : List String :=
  vals.filterMap (fun v => match v with | .str s => some s | _ => none)

/-- The categorical domain pandas `astype('category')` assigns to a
string column: the distinct observed values, sorted. -/
def sortedUnique (l : List String) : List String :=
  List.insertionSort (· ≤ ·) l.dedup

/-- `series.astype('category')`, with `.cat.as_ordered()` when `ordered`. -/
def toCategorical (c : Column) (ordered : Bool) : Column :=
  ⟨c.name, .categorical (sortedUnique (stringVals c.vals)) ordered, c.vals⟩

/-- `is_string_dtype` in the model: the column's dtype is text. -/
def isStringDtype : Dtype → Bool
  | .text => true
  | _ => false

/-- One iteration of the loop of `convert_to_categorical`. -/
def convertStep (ordinal_categorical_features skip_features : List String)
    (df : DataFrame) (f : String) : DataFrame :=
  match df.getCol f with
  | none => df
  | some c =>
    if f ∉ skip_features ∧ isStringDtype c.dtype then
      df.setCol (toCategorical c (decide (f ∈ ordinal_categorical_features)))
    else df

def convert_to_categorical (df : DataFrame)
    (ordinal_categorical_features drop_features skip_features : List String) :
    Option DataFrame :=
  match df.dropAll drop_features with
  | none => none
  | some d =>
    some (d.colNames.foldl (convertStep ordinal_categorical_features skip_features) d)

/-! ### `numericalize_categories` -/

/-- `.cat.codes` of a single cell: zero-based index of the value in the
categorical domain, `-1` for anything that is not a category value
(in a well-formed categorical column only missing entries). -/
def catCode (cats : List String) (v : Value) : Int :=
  match v with
  | .str s => if s ∈ cats then (cats.indexOf s : Int) else -1
  | _ => -1

/-- An entry of the returned category mapper: either the
code-to-category dictionary `dict(enumerate(categories))`, or the
literal string recorded for a one-hot expanded column. -/
inductive MapperEntry where
  | coded (pairs : List (Nat × String))
  | marker (s : String)
deriving DecidableEq, Repr

def onehotMarker : MapperEntry := .marker "one-hot"

/-- The indicator columns `pd.get_dummies(series, prefix=f)` produces:
one column `f_cat` per category of the domain; a missing entry gets `0`
in every indicator. -/
def oneHotCols (f : String) (cats : List String) (vals : List Value) : List Column :=
  cats.map (fun cat =>
    ⟨f ++ "_" ++ cat, .numeric,
      vals.map (fun v => .num (if v = .str cat then 1 else 0))⟩)

def isCategoricalDtype : Dtype → Bool
  | .categorical _ _ => true
  | _ => false

/-- Handling of one categorical, non-skipped column inside the loop of
`numericalize_categories`: integer codes (`.cat.codes + 1`) when the
category count exceeds the threshold, one-hot expansion otherwise. -/
def numProcess (max_categories : Nat) (st : DataFrame × List (String × MapperEntry))
    (f : String) (cats : List String) (vals : List Value) :
    Option (DataFrame × List (String × MapperEntry)) :=
  if cats.length > max_categories then
    some (st.1.setCol ⟨f, .numeric, vals.map (fun v => .num ((catCode cats v + 1 : Int) : ℚ))⟩,
          st.2 ++ [(f, .coded cats.enum)])
  else
    match (st.1.dropCol f).join (oneHotCols f cats vals) with
    | none => none
    | some d => some (d, st.2 ++ [(f, onehotMarker)])

/-- One iteration of the loop of `numericalize_categories`.  `none`
models a pandas error (label lookup failure, join overlap).  The source
tests `feature not in skip_features and is_categorical_dtype(...)` and
then reads the categorical domain; destructuring the dtype first and
testing the skip set second is the same observable behaviour. -/
def numStep (max_categories : Nat) (skip_features : List String)
    (st : DataFrame × List (String × MapperEntry)) (f : String) :
    Option (DataFrame × List (String × MapperEntry)) :=
  match st.1.getCol f with
  | none => none
  | some c =>
    match c.dtype with
    | .categorical cats _ =>
      if f ∉ skip_features then numProcess max_categories st f cats c.vals
      else some st
    | _ => some st

def numericalize_categories (df : DataFrame) (max_categories : Nat)
    (skip_features : List String) :
    Option (DataFrame × List (String × MapperEntry)) :=
  df.colNames.foldlM (numStep max_categories skip_features) (df, [])

/-! ### `interpolate_missing_values` -/

/-- `is_numeric_dtype`: true for numeric and boolean columns. -/
def isNumericDtype : Dtype → Bool
  | .numeric => true
  | .boolean => true
  | _ => false

/-- The numeric content of a cell as pandas aggregation sees it
(booleans count as 0/1, missing entries are skipped). -/
def toNumQ : Value → Option ℚ
  | .num q => some q
  | .bool b => some (if b then 1 else 0)
  | _ => none

def numsOf (vals : List Value) : List ℚ :=
  vals.filterMap toNumQ

/-- `Series.median()`: the midpoint of the two middle elements of the
sorted non-missing values; `none` (NaN) for an empty list. -/
def medianQ (l : List ℚ) : Option ℚ :=
  if l.length = 0 then none
  else
    some (((List.insertionSort (· ≤ ·) l).getD ((l.length - 1) / 2) 0 +
           (List.insertionSort (· ≤ ·) l).getD (l.length / 2) 0) / 2)

/-- `series.fillna(median)`: replace missing entries when the median is
defined; `fillna(NaN)` leaves the column unchanged. -/
def fillWith (m : Option ℚ) (vals : List Value) : List Value :=
  match m with
  | none => vals
  | some q => vals.map (fun v => if v = .na then .num q else v)

/-- One iteration of the loop of `interpolate_missing_values`. -/
def interpStep (skip_features : List String)
    (st : DataFrame × List (String × Option ℚ)) (f : String) :
    DataFrame × List (String × Option ℚ) :=
  match st.1.getCol f with
  | none => st
  | some c =>
    if f ∉ skip_features ∧ isNumericDtype c.dtype then
      let missingCol : Column :=
        ⟨f ++ "_missing", .boolean, c.vals.map (fun v => .bool (decide (v = .na)))⟩
      let filled := fillWith (medianQ (numsOf c.vals)) c.vals
      let df₂ := (st.1.setCol missingCol).setCol ⟨f, c.dtype, filled⟩
      (df₂, st.2 ++ [(f, medianQ (numsOf filled))])
    else st

def interpolate_missing_values (df : DataFrame) (skip_features : List String) :
    DataFrame × List (String × Option ℚ) :=
  df.colNames.foldl (interpStep skip_features) (df, [])

/-! ### `extract_date_features` -/

/-- `re.sub('[Dd]ate$', '', feature)`: strip a trailing `date` or `Date`
(only the first letter of the suffix is case-insensitive).  Stated over
the character list of the string. -/
def stripDate (s : String) : String :=
  if s.data.length ≥ 4 ∧
      (s.data.drop (s.data.length - 4) = ['d', 'a', 't', 'e'] ∨
       s.data.drop (s.data.length - 4) = ['D', 'a', 't', 'e'])
  then ⟨s.data.take (s.data.length - 4)⟩ else s

def baseAttrs : List String :=
  ["year", "month", "week", "day",
   "dayofweek", "dayofyear", "is_month_end", "is_month_start",
   "is_quarter_end", "is_quarter_start", "is_year_end", "is_year_start"]

def timeAttrs : List String := ["hour", "minute", "second"]

def attrsList (time : Bool) : List String :=
  baseAttrs ++ (if time then timeAttrs else [])

/-- `getattr(series.dt, attr)` on one cell; `NaN` on a missing date. -/
def dtAttr (attr : String) (v : Value) : Value :=
  match v with
  | .date d =>
    if attr = "year" then .num d.year
    else if attr = "month" then .num d.month
    else if attr = "week" then .num d.week
    else if attr = "day" then .num d.day
    else if attr = "dayofweek" then .num d.dayofweek
    else if attr = "dayofyear" then .num d.dayofyear
    else if attr = "is_month_end" then .bool d.is_month_end
    else if attr = "is_month_start" then .bool d.is_month_start
    else if attr = "is_quarter_end" then .bool d.is_quarter_end
    else if attr = "is_quarter_start" then .bool d.is_quarter_start
    else if attr = "is_year_end" then .bool d.is_year_end
    else if attr = "is_year_start" then .bool d.is_year_start
    else if attr = "hour" then .num d.hour
    else if attr = "minute" then .num d.minute
    else if attr = "second" then .num d.second
    else .na
  | _ => .na

/-- The dtype of a derived attribute column (`is_*` accessors are
boolean, the rest integer-valued). -/
def attrDtype (attr : String) : Dtype :=
  if attr ∈ ["is_month_end", "is_month_start", "is_quarter_end",
             "is_quarter_start", "is_year_end", "is_year_start"]
  then .boolean else .numeric

/-- The inner loop of `extract_date_features`: one `df[stem_attr] = ...`
assignment per attribute. -/
def dateDerived (stem : String) (vals : List Value) (attrs : List String)
    (d : DataFrame) : DataFrame :=
  attrs.foldl (fun d attr =>
    d.setCol ⟨stem ++ "_" ++ attr, attrDtype attr, vals.map (dtAttr attr)⟩) d

/-- One iteration of the loop of `extract_date_features`.  A feature
whose column is not already datetime-typed would be coerced by the
external library's parser; such columns are outside the model (`none`).
The source re-reads `df[feature]` for every attribute, but no derived
name `stem_attr` can equal `feature` (no attribute ends in `ate`), so
reading the column once is equivalent. -/
def dateStep (time drop : Bool) (df : DataFrame) (f : String) : Option DataFrame :=
  match df.getCol f with
  | none => none
  | some c =>
    if c.dtype = .datetime then
      let df₁ := dateDerived (stripDate f) c.vals (attrsList time) df
      some (if drop then df₁.dropCol f else df₁)
    else none

def extract_date_features (df : DataFrame) (date_features : List String)
    (time : Bool := false) (drop : Bool := true) : Option DataFrame :=
  date_features.foldlM (dateStep time drop) df

/-- The numeric value at row `i` of column `nm` (0 when the column is
absent or the cell is not numeric); used to state row-sum properties. -/
def numAt (df : DataFrame) (nm : String) (i : Nat) : ℚ :=
  match df.getCol nm with
  | none => 0
  | some c =>
    match c.vals.getD i Value.na with
    | .num q => q
    | _ => 0

/-- Well-formedness of one cell of a categorical column: every value is
either missing or one of the category values (pandas guarantees this
for any categorical series). -/
def validCatVal (cats : List String) (v : Value) : Bool :=
  match v with
  | .na => true
  | .str s => decide (s ∈ cats)
  | _ => false

/-- Well-formedness of one cell of a numeric column: every value is
either missing or a number. -/
def validNumVal (v : Value) : Bool :=
  match v with
  | .na => true
  | .num _ => true
  | _ => false

/-! ### Concrete frames used by witnesses and counterexamples -/

def wdfC6 : DataFrame :=
  ⟨[⟨"a", .text, [.str "x"]⟩, ⟨"b", .text, [.str "y"]⟩, ⟨"d", .numeric, [.num 1]⟩]⟩

def wdfC6out : DataFrame :=
  ⟨[⟨"a", .categorical ["x"] true, [.str "x"]⟩, ⟨"b", .text, [.str "y"]⟩]⟩

def wdfC1 : DataFrame :=
  ⟨[⟨"c", .categorical ["a"] false, [.str "a", .na]⟩]⟩

def wdfC1out : DataFrame := ⟨[⟨"c", .numeric, [.num 1, .num 0]⟩]⟩

def wdfC2 : DataFrame := ⟨[⟨"c", .categorical ["a"] false, [.na]⟩]⟩

def wdfC2out : DataFrame := ⟨[⟨"c_a", .numeric, [.num 0]⟩]⟩

def wdfC2b : DataFrame :=
  ⟨[⟨"c", .categorical ["a"] false, [.str "a", .na]⟩]⟩

def wdfC2bout : DataFrame := ⟨[⟨"c_a", .numeric, [.num 1, .num 0]⟩]⟩

def wdtVal : DateVal :=
  ⟨2000, 3, 10, 11, 5, 71, false, false, false, false, false, false, 0, 0, 0⟩

def wdfC7 : DataFrame :=
  ⟨[⟨"t", .text, [.str "u", .str "u"]⟩,
    ⟨"k", .categorical ["u"] false, [.str "u", .na]⟩,
    ⟨"m", .numeric, [.num 1, .na]⟩,
    ⟨"dt", .datetime, [.date wdtVal, .na]⟩]⟩

def wdfC7conv : DataFrame :=
  ⟨[⟨"t", .categorical ["u"] false, [.str "u", .str "u"]⟩,
    ⟨"k", .categorical ["u"] false, [.str "u", .na]⟩,
    ⟨"m", .numeric, [.num 1, .na]⟩,
    ⟨"dt", .datetime, [.date wdtVal, .na]⟩]⟩

def wdfC7num : DataFrame :=
  ⟨[⟨"t", .text, [.str "u", .str "u"]⟩,
    ⟨"k", .numeric, [.num 1, .num 0]⟩,
    ⟨"m", .numeric, [.num 1, .na]⟩,
    ⟨"dt", .datetime, [.date wdtVal, .na]⟩]⟩

def wdfC7interp : DataFrame :=
  ⟨[⟨"t", .text, [.str "u", .str "u"]⟩,
    ⟨"k", .categorical ["u"] false, [.str "u", .na]⟩,
    ⟨"m", .numeric, [.num 1, .num 1]⟩,
    ⟨"dt", .datetime, [.date wdtVal, .na]⟩,
    ⟨"m_missing", .boolean, [.bool false, .bool true]⟩]⟩

def wdfC7date : DataFrame :=
  ⟨[⟨"t", .text, [.str "u", .str "u"]⟩,
    ⟨"k", .categorical ["u"] false, [.str "u", .na]⟩,
    ⟨"m", .numeric, [.num 1, .na]⟩,
    ⟨"dt_year", .numeric, [.num 2000, .na]⟩,
    ⟨"dt_month", .numeric, [.num 3, .na]⟩,
    ⟨"dt_week", .numeric, [.num 10, .na]⟩,
    ⟨"dt_day", .numeric, [.num 11, .na]⟩,
    ⟨"dt_dayofweek", .numeric, [.num 5, .na]⟩,
    ⟨"dt_dayofyear", .numeric, [.num 71, .na]⟩,
    ⟨"dt_is_month_end", .boolean, [.bool false, .na]⟩,
    ⟨"dt_is_month_start", .boolean, [.bool false, .na]⟩,
    ⟨"dt_is_quarter_end", .boolean, [.bool false, .na]⟩,
    ⟨"dt_is_quarter_start", .boolean, [.bool false, .na]⟩,
    ⟨"dt_is_year_end", .boolean, [.bool false, .na]⟩,
    ⟨"dt_is_year_start", .boolean, [.bool false, .na]⟩]⟩

def wdfC3 : DataFrame := ⟨[⟨"m", .numeric, [.num 1, .na, .num 3]⟩]⟩

def wdfC4 : DataFrame := ⟨[⟨"SaleDATE", .datetime, [.date wdtVal]⟩]⟩

def wdfC4out : DataFrame :=
  ⟨[⟨"SaleDATE_year", .numeric, [.num 2000]⟩,
    ⟨"SaleDATE_month", .numeric, [.num 3]⟩,
    ⟨"SaleDATE_week", .numeric, [.num 10]⟩,
    ⟨"SaleDATE_day", .numeric, [.num 11]⟩,
    ⟨"SaleDATE_dayofweek", .numeric, [.num 5]⟩,
    ⟨"SaleDATE_dayofyear", .numeric, [.num 71]⟩,
    ⟨"SaleDATE_is_month_end", .boolean, [.bool false]⟩,
    ⟨"SaleDATE_is_month_start", .boolean, [.bool false]⟩,
    ⟨"SaleDATE_is_quarter_end", .boolean, [.bool false]⟩,
    ⟨"SaleDATE_is_quarter_start", .boolean, [.bool false]⟩,
    ⟨"SaleDATE_is_year_end", .boolean, [.bool false]⟩,
    ⟨"SaleDATE_is_year_start", .boolean, [.bool false]⟩]⟩

def wdfC5 : DataFrame := ⟨[⟨"SaleDate", .datetime, [.date wdtVal]⟩]⟩

def wdfC5out : DataFrame :=
  ⟨[⟨"Sale_year", .numeric, [.num 2000]⟩,
    ⟨"Sale_month", .numeric, [.num 3]⟩,
    ⟨"Sale_week", .numeric, [.num 10]⟩,
    ⟨"Sale_day", .numeric, [.num 11]⟩,
    ⟨"Sale_dayofweek", .numeric, [.num 5]⟩,
    ⟨"Sale_dayofyear", .numeric, [.num 71]⟩,
    ⟨"Sale_is_month_end", .boolean, [.bool false]⟩,
    ⟨"Sale_is_month_start", .boolean, [.bool false]⟩,
    ⟨"Sale_is_quarter_end", .boolean, [.bool false]⟩,
    ⟨"Sale_is_quarter_start", .boolean, [.bool false]⟩,
    ⟨"Sale_is_year_end", .boolean, [.bool false]⟩,
    ⟨"Sale_is_year_start", .boolean, [.bool false]⟩]⟩

/-! ### Basic lemmas about the data-frame operations -/

theorem findCol_append (f : String) (l₁ l₂ : List Column) :
    findCol f (l₁ ++ l₂) =
      match findCol f l₁ with
      | some c => some c
      | none => findCol f l₂ := by
  induction l₁ with
  | nil => simp [findCol]
  | cons x rest ih =>
    by_cases h : x.name = f <;> simp [findCol, h, ih]

theorem findCol_replaceCol_self (c : Column) (l : List Column) :
    findCol c.name (replaceCol c l) = (findCol c.name l).map (fun _ => c) := by
  induction l with
  | nil => simp [findCol, replaceCol]
  | cons x rest ih =>
    by_cases h : x.name = c.name <;> simp [findCol, replaceCol, h, ih]

theorem findCol_replaceCol_ne (c : Column) (f : String) (h : f ≠ c.name)
    (l : List Column) : findCol f (replaceCol c l) = findCol f l := by
  induction l with
  | nil => simp [replaceCol]
  | cons x rest ih =>
    by_cases hx : x.name = c.name
    · have : c.name ≠ f := fun he => h he.symm
      simp [findCol, replaceCol, hx, this, ih]
    · by_cases hf : x.name = f <;> simp [findCol, replaceCol, hx, hf, h, ih]

theorem getCol_setCol_self (df : DataFrame) (c : Column) :
    (df.setCol c).getCol c.name = some c := by
  unfold DataFrame.setCol DataFrame.getCol
  cases hfc : findCol c.name df.cols with
  | some x => simp [hfc, findCol_replaceCol_self]
  | none => simp [hfc, findCol_append, findCol]

theorem getCol_setCol_ne (df : DataFrame) (c : Column) (f : String) (h : f ≠ c.name) :
    (df.setCol c).getCol f = df.getCol f := by
  unfold DataFrame.setCol DataFrame.getCol
  cases hfc : findCol c.name df.cols with
  | some x =>
    simp [hfc, findCol_replaceCol_ne c f h]
  | none =>
    simp only [hfc, Option.isSome_none, Bool.false_eq_true, if_false]
    rw [findCol_append]
    cases hf : findCol f df.cols with
    | some y => simp
    | none => simp [findCol, Ne.symm h]

theorem findCol_filter_ne_self (f : String) (l : List Column) :
    findCol f (l.filter (fun c => decide (c.name ≠ f))) = none := by
  induction l with
  | nil => rfl
  | cons x rest ih =>
    by_cases h : x.name = f
    · simpa [List.filter_cons, h] using ih
    · simpa [List.filter_cons, h, findCol] using ih

theorem findCol_filter_ne_of_ne (g f : String) (h : f ≠ g) (l : List Column) :
    findCol f (l.filter (fun c => decide (c.name ≠ g))) = findCol f l := by
  induction l with
  | nil => rfl
  | cons x rest ih =>
    by_cases hx : x.name = g
    · have hxf : x.name ≠ f := by rw [hx]; exact Ne.symm h
      rw [List.filter_cons_of_neg (by simp [hx])]
      rw [show findCol f (x :: rest) = findCol f rest from by simp [findCol, hxf]]
      exact ih
    · rw [List.filter_cons_of_pos (by simp [hx])]
      by_cases hf : x.name = f
      · simp [findCol, hf]
      · simp only [findCol, hf, if_false]
        exact ih

theorem getCol_dropCol_self (df : DataFrame) (f : String) :
    (df.dropCol f).getCol f = none :=
  findCol_filter_ne_self f df.cols

theorem getCol_dropCol_ne (df : DataFrame) (g f : String) (h : f ≠ g) :
    (df.dropCol g).getCol f = df.getCol f :=
  findCol_filter_ne_of_ne g f h df.cols

theorem join_eq_some (df : DataFrame) (new : List Column) (d : DataFrame)
    (h : df.join new = some d) :
    (∀ c ∈ new, c.name ∉ df.colNames) ∧ d = ⟨df.cols ++ new⟩ := by
  unfold DataFrame.join at h
  by_cases hc : ∀ c ∈ new, c.name ∉ df.colNames
  · rw [if_pos hc] at h
    exact ⟨hc, (Option.some.injEq _ _ ▸ h).symm⟩
  · rw [if_neg hc] at h
    exact absurd h (by simp)

theorem getCol_join_isSome (df : DataFrame) (new : List Column) (d : DataFrame)
    (h : df.join new = some d) (f : String) (hf : (df.getCol f).isSome) :
    d.getCol f = df.getCol f := by
  obtain ⟨-, rfl⟩ := join_eq_some df new d h
  show findCol f (df.cols ++ new) = _
  rw [findCol_append]
  rcases Option.isSome_iff_exists.mp hf with ⟨x, hx⟩
  rw [show findCol f df.cols = some x from hx]
  exact hx.symm

theorem getCol_join_none (df : DataFrame) (new : List Column) (d : DataFrame)
    (h : df.join new = some d) (f : String) (hf : df.getCol f = none) :
    d.getCol f = findCol f new := by
  obtain ⟨-, rfl⟩ := join_eq_some df new d h
  show findCol f (df.cols ++ new) = _
  rw [findCol_append]
  rw [show findCol f df.cols = none from hf]

theorem lookupStr_append {α : Type} (k : String) (l₁ l₂ : List (String × α)) :
    lookupStr k (l₁ ++ l₂) =
      match lookupStr k l₁ with
      | some v => some v
      | none => lookupStr k l₂ := by
  induction l₁ with
  | nil => simp [lookupStr]
  | cons x rest ih =>
    obtain ⟨k', v⟩ := x
    by_cases h : k' = k <;> simp [lookupStr, h, ih]

theorem findCol_isSome_of_mem (f : String) (l : List Column)
    (h : f ∈ l.map (·.name)) : (findCol f l).isSome := by
  induction l with
  | nil => exact absurd h (by simp)
  | cons x rest ih =>
    by_cases hx : x.name = f
    · simp [findCol, hx]
    · rcases List.mem_cons.mp h with he | he
      · exact absurd he.symm hx
      · simpa [findCol, hx] using ih he

theorem mem_of_findCol_isSome (f : String) (l : List Column)
    (h : (findCol f l).isSome) : f ∈ l.map (·.name) := by
  induction l with
  | nil => simp [findCol] at h
  | cons x rest ih =>
    by_cases hx : x.name = f
    · exact List.mem_cons.mpr (Or.inl hx.symm)
    · simp only [findCol, hx, if_false] at h
      exact List.mem_cons.mpr (Or.inr (ih h))

theorem getCol_isSome_of_mem (df : DataFrame) (f : String) (h : f ∈ df.colNames) :
    (df.getCol f).isSome :=
  findCol_isSome_of_mem f df.cols h

theorem mem_of_getCol_isSome (df : DataFrame) (f : String) (h : (df.getCol f).isSome) :
    f ∈ df.colNames :=
  mem_of_findCol_isSome f df.cols h

theorem findCol_name (f : String) (l : List Column) (c : Column)
    (h : findCol f l = some c) : c.name = f := by
  induction l with
  | nil => simp [findCol] at h
  | cons x rest ih =>
    by_cases hx : x.name = f
    · simp only [findCol, hx, if_true, Option.some.injEq] at h
      rw [← h]; exact hx
    · simp only [findCol, hx, if_false] at h
      exact ih h

theorem dropAll_eq_some (df : DataFrame) (features : List String) (d : DataFrame)
    (h : df.dropAll features = some d) :
    (∀ f ∈ features, f ∈ df.colNames) ∧
      d = ⟨df.cols.filter (fun c => decide (c.name ∉ features))⟩ := by
  unfold DataFrame.dropAll at h
  by_cases hc : ∀ f ∈ features, f ∈ df.colNames
  · rw [if_pos hc] at h
    exact ⟨hc, (Option.some.injEq _ _ ▸ h).symm⟩
  · rw [if_neg hc] at h
    exact absurd h (by simp)

theorem dropAll_none_of_absent (df : DataFrame) (features : List String) (f : String)
    (hf : f ∈ features) (habs : f ∉ df.colNames) : df.dropAll features = none := by
  unfold DataFrame.dropAll
  rw [if_neg]
  intro hall
  exact habs (hall f hf)

theorem findCol_filter_not_mem_self (fs : List String) (g : String) (hg : g ∈ fs)
    (l : List Column) :
    findCol g (l.filter (fun c => decide (c.name ∉ fs))) = none := by
  induction l with
  | nil => rfl
  | cons x rest ih =>
    by_cases hx : x.name ∈ fs
    · rw [List.filter_cons_of_neg (by simp [hx])]
      exact ih
    · have hxg : x.name ≠ g := fun he => hx (he ▸ hg)
      rw [List.filter_cons_of_pos (by simp [hx])]
      simp only [findCol, hxg, if_false]
      exact ih

theorem findCol_filter_not_mem_of (fs : List String) (f : String) (hf : f ∉ fs)
    (l : List Column) :
    findCol f (l.filter (fun c => decide (c.name ∉ fs))) = findCol f l := by
  induction l with
  | nil => rfl
  | cons x rest ih =>
    by_cases hx : x.name ∈ fs
    · have hxf : x.name ≠ f := fun he => hf (he ▸ hx)
      rw [List.filter_cons_of_neg (by simp [hx])]
      rw [show findCol f (x :: rest) = findCol f rest from by simp [findCol, hxf]]
      exact ih
    · rw [List.filter_cons_of_pos (by simp [hx])]
      by_cases hxf : x.name = f
      · simp [findCol, hxf]
      · simp only [findCol, hxf, if_false]
        exact ih

theorem getCol_dropAll_not_mem (df : DataFrame) (features : List String)
    (d : DataFrame) (h : df.dropAll features = some d) (f : String) (hf : f ∉ features) :
    d.getCol f = df.getCol f := by
  obtain ⟨-, rfl⟩ := dropAll_eq_some df features d h
  exact findCol_filter_not_mem_of features f hf df.cols

theorem getCol_dropAll_mem (df : DataFrame) (features : List String)
    (d : DataFrame) (h : df.dropAll features = some d) (f : String) (hf : f ∈ features) :
    d.getCol f = none := by
  obtain ⟨-, rfl⟩ := dropAll_eq_some df features d h
  exact findCol_filter_not_mem_self features f hf df.cols

/-! ### Row-count (height) preservation of the primitive operations -/

theorem mem_replaceCol (c x : Column) (l : List Column) (h : x ∈ replaceCol c l) :
    x = c ∨ x ∈ l := by
  induction l with
  | nil => simp [replaceCol] at h
  | cons y rest ih =>
    simp only [replaceCol] at h
    rcases List.mem_cons.mp h with he | he
    · by_cases hy : y.name = c.name
      · rw [hy] at he; simp at he; exact Or.inl he
      · rw [if_neg hy] at he
        exact Or.inr (List.mem_cons.mpr (Or.inl he))
    · rcases ih he with h' | h'
      · exact Or.inl h'
      · exact Or.inr (List.mem_cons.mpr (Or.inr h'))

theorem hasHeight_setCol (df : DataFrame) (c : Column) (n : Nat)
    (hdf : HasHeight df n) (hc : c.vals.length = n) : HasHeight (df.setCol c) n := by
  intro x hx
  unfold DataFrame.setCol at hx
  by_cases hs : (findCol c.name df.cols).isSome
  · rw [if_pos hs] at hx
    rcases mem_replaceCol c x df.cols hx with rfl | hm
    · exact hc
    · exact hdf x hm
  · rw [if_neg hs] at hx
    rcases List.mem_append.mp hx with hm | hm
    · exact hdf x hm
    · simp at hm; rw [hm]; exact hc

theorem hasHeight_dropCol (df : DataFrame) (f : String) (n : Nat)
    (hdf : HasHeight df n) : HasHeight (df.dropCol f) n := by
  intro x hx
  exact hdf x (List.mem_of_mem_filter hx)

theorem hasHeight_dropAll (df : DataFrame) (features : List String) (d : DataFrame)
    (h : df.dropAll features = some d) (n : Nat) (hdf : HasHeight df n) :
    HasHeight d n := by
  obtain ⟨-, rfl⟩ := dropAll_eq_some df features d h
  intro x hx
  exact hdf x (List.mem_of_mem_filter hx)

theorem hasHeight_join (df : DataFrame) (new : List Column) (d : DataFrame)
    (h : df.join new = some d) (n : Nat) (hdf : HasHeight df n)
    (hnew : ∀ c ∈ new, c.vals.length = n) : HasHeight d n := by
  obtain ⟨-, rfl⟩ := join_eq_some df new d h
  intro x hx
  rcases List.mem_append.mp hx with hm | hm
  · exact hdf x hm
  · exact hnew x hm

/-! ### Behaviour of the `convert_to_categorical` loop -/

theorem convertStep_getCol_ne (ord skip : List String) (df : DataFrame) (g f : String)
    (h : f ≠ g) : (convertStep ord skip df g).getCol f = df.getCol f := by
  unfold convertStep
  cases hg : df.getCol g with
  | none => rfl
  | some c =>
    show (if g ∉ skip ∧ isStringDtype c.dtype = true
      then df.setCol (toCategorical c (decide (g ∈ ord))) else df).getCol f = df.getCol f
    by_cases hcond : g ∉ skip ∧ isStringDtype c.dtype = true
    · rw [if_pos hcond]
      exact getCol_setCol_ne df _ f (by rw [show (toCategorical c (decide (g ∈ ord))).name = c.name from rfl, findCol_name g df.cols c hg]; exact h)
    · rw [if_neg hcond]

theorem convertFold_getCol_not_mem (ord skip : List String) (L : List String)
    (d : DataFrame) (f : String) (hf : f ∉ L) :
    (L.foldl (convertStep ord skip) d).getCol f = d.getCol f := by
  induction L generalizing d with
  | nil => rfl
  | cons g rest ih =>
    have hfg : f ≠ g := fun he => hf (he ▸ List.mem_cons_self g rest)
    have hfr : f ∉ rest := fun hm => hf (List.mem_cons_of_mem g hm)
    rw [List.foldl_cons, ih _ hfr, convertStep_getCol_ne ord skip d g f hfg]

theorem convertStep_getCol_self (ord skip : List String) (df : DataFrame) (f : String)
    (c : Column) (hc : df.getCol f = some c) :
    (convertStep ord skip df f).getCol f =
      if f ∉ skip ∧ isStringDtype c.dtype
      then some (toCategorical c (decide (f ∈ ord))) else some c := by
  unfold convertStep
  rw [hc]
  show (if f ∉ skip ∧ isStringDtype c.dtype = true
      then df.setCol (toCategorical c (decide (f ∈ ord))) else df).getCol f = _
  by_cases hcond : f ∉ skip ∧ isStringDtype c.dtype = true
  · rw [if_pos hcond, if_pos hcond]
    rw [show f = (toCategorical c (decide (f ∈ ord))).name from (findCol_name f df.cols c hc).symm]
    exact getCol_setCol_self df _
  · rw [if_neg hcond, if_neg hcond]
    exact hc

theorem convert_eq_fold (df : DataFrame) (ord dropf skip : List String) (d₀ : DataFrame)
    (h : df.dropAll dropf = some d₀) :
    convert_to_categorical df ord dropf skip =
      some (d₀.colNames.foldl (convertStep ord skip) d₀) := by
  unfold convert_to_categorical
  rw [h]

theorem mem_split_nodup {α : Type} (l : List α) (a : α) (h : a ∈ l) (hn : l.Nodup) :
    ∃ s t, l = s ++ a :: t ∧ a ∉ s ∧ a ∉ t := by
  rcases List.append_of_mem h with ⟨s, t, rfl⟩
  rw [List.nodup_append] at hn
  obtain ⟨hs, ht, hdisj⟩ := hn
  exact ⟨s, t, rfl, fun ha => hdisj ha (List.mem_cons_self a t),
    fun ha => (List.nodup_cons.mp ht).1 ha⟩

theorem nodup_names_filter (l : List Column) (p : Column → Bool)
    (h : (l.map (·.name)).Nodup) : ((l.filter p).map (·.name)).Nodup :=
  h.sublist ((l.filter_sublist).map (·.name))

theorem dropAll_nodup_names (df : DataFrame) (features : List String) (d : DataFrame)
    (h : df.dropAll features = some d) (hn : df.colNames.Nodup) : d.colNames.Nodup := by
  obtain ⟨-, rfl⟩ := dropAll_eq_some df features d h
  exact nodup_names_filter df.cols _ hn

/-- C6: in the output of `convert_to_categorical`, a text column that is
neither dropped nor skipped becomes categorical, with the ordered flag
set exactly when the column is in the ordinal set (so ordinal columns
carry a total order over their categories and non-ordinal converted
columns are unordered); a skipped text column keeps its original text
representation unchanged; dropped columns are absent from the output. -/
theorem C6_theorem (df : DataFrame)
    (ordinal_categorical_features drop_features skip_features : List String)
    (df' : DataFrame)
    (h : convert_to_categorical df ordinal_categorical_features drop_features
      skip_features = some df')
    (hnodup : df.colNames.Nodup)
    (f : String) (c : Column) (hc : df.getCol f = some c)
    (hdrop : f ∉ drop_features) (htext : c.dtype = .text) :
    (f ∉ skip_features →
      df'.getCol f = some ⟨f, .categorical (sortedUnique (stringVals c.vals))
        (decide (f ∈ ordinal_categorical_features)), c.vals⟩) ∧
    (f ∈ skip_features → df'.getCol f = some c) ∧
    (∀ g ∈ drop_features, df'.getCol g = none) := by
  unfold convert_to_categorical at h
  cases hda : df.dropAll drop_features with
  | none => rw [hda] at h; exact absurd h (by simp)
  | some d₀ =>
    rw [hda] at h
    have hdf' : df' = d₀.colNames.foldl
        (convertStep ordinal_categorical_features skip_features) d₀ :=
      (Option.some.injEq _ _ ▸ h).symm
    subst hdf'
    have hc₀ : d₀.getCol f = some c := by
      rw [getCol_dropAll_not_mem df drop_features d₀ hda f hdrop]; exact hc
    have hmem : f ∈ d₀.colNames :=
      mem_of_getCol_isSome _ _ (by rw [hc₀]; rfl)
    have hnd : d₀.colNames.Nodup := dropAll_nodup_names df drop_features d₀ hda hnodup
    obtain ⟨L₁, L₂, hsplit, hf1, hf2⟩ := mem_split_nodup d₀.colNames f hmem hnd
    rw [hsplit, List.foldl_append, List.foldl_cons]
    set d₁ := L₁.foldl (convertStep ordinal_categorical_features skip_features) d₀
      with hd₁
    have hc₁ : d₁.getCol f = some c := by
      rw [hd₁, convertFold_getCol_not_mem _ _ L₁ d₀ f hf1]; exact hc₀
    have hname : c.name = f := findCol_name f df.cols c hc
    refine ⟨?_, ?_, ?_⟩
    · intro hskip
      rw [convertFold_getCol_not_mem _ _ L₂ _ f hf2]
      rw [convertStep_getCol_self _ _ d₁ f c hc₁]
      rw [if_pos ⟨hskip, by rw [htext]; rfl⟩]
      unfold toCategorical
      rw [hname]
    · intro hskip
      rw [convertFold_getCol_not_mem _ _ L₂ _ f hf2]
      rw [convertStep_getCol_self _ _ d₁ f c hc₁]
      rw [if_neg (fun hcond => hcond.1 hskip)]
    · intro g hg
      have hg₀ : d₀.getCol g = none := getCol_dropAll_mem df drop_features d₀ hda g hg
      have hgnotmem : g ∉ d₀.colNames := by
        intro hm
        have hsome := getCol_isSome_of_mem d₀ g hm
        rw [hg₀] at hsome
        exact absurd hsome (by simp)
      rw [hsplit] at hgnotmem
      have hg1 : g ∉ L₁ := fun hm => hgnotmem (List.mem_append.mpr (Or.inl hm))
      have hgf : g ≠ f := fun he =>
        hgnotmem (List.mem_append.mpr (Or.inr (List.mem_cons.mpr (Or.inl he))))
      have hg2 : g ∉ L₂ := fun hm =>
        hgnotmem (List.mem_append.mpr (Or.inr (List.mem_cons.mpr (Or.inr hm))))
      rw [convertFold_getCol_not_mem _ _ L₂ _ g hg2]
      rw [convertStep_getCol_ne _ _ d₁ f g hgf]
      rw [hd₁, convertFold_getCol_not_mem _ _ L₁ d₀ g hg1]
      exact hg₀

/-- C6 witness: a concrete run of `convert_to_categorical` with an
ordinal column "a", a skipped column "b" and a dropped column "d". -/
theorem C6_witness :
    convert_to_categorical wdfC6 ["a"] ["d"] ["b"] = some wdfC6out ∧
    wdfC6out.getCol "a" =
      some ⟨"a", .categorical (sortedUnique (stringVals [Value.str "x"]))
        (decide (("a" : String) ∈ (["a"] : List String))), [Value.str "x"]⟩ := by
  constructor
  · decide
  · exact (C6_theorem wdfC6 ["a"] ["d"] ["b"] wdfC6out (by decide) (by decide) "a"
      ⟨"a", Dtype.text, [Value.str "x"]⟩ (by decide) (by decide) (by decide)).1 (by decide)

/-- C9: if the drop set names a column absent from the table, the call
fails with an error surfaced to the caller (`none`), and no partial
table is returned. -/
theorem C9_theorem (df : DataFrame)
    (ordinal_categorical_features drop_features skip_features : List String)
    (f : String) (hf : f ∈ drop_features) (habs : f ∉ df.colNames) :
    convert_to_categorical df ordinal_categorical_features drop_features
      skip_features = none := by
  unfold convert_to_categorical
  rw [dropAll_none_of_absent df drop_features f hf habs]

/-- C9 witness: dropping the absent column "z" errors out. -/
theorem C9_witness :
    (("z" : String) ∈ (["z"] : List String)) ∧
    convert_to_categorical ⟨[⟨"a", .text, [.str "x"]⟩]⟩ [] ["z"] [] = none :=
  ⟨by decide, C9_theorem ⟨[⟨"a", .text, [.str "x"]⟩]⟩ [] ["z"] [] "z"
    (by decide) (by decide)⟩

/-! ### Behaviour of the `numericalize_categories` loop -/

theorem lookupStr_append_ne {α : Type} (mp : List (String × α)) (g f : String) (e : α)
    (h : f ≠ g) : lookupStr f (mp ++ [(g, e)]) = lookupStr f mp := by
  rw [lookupStr_append]
  cases lookupStr f mp with
  | some v => rfl
  | none => simp [lookupStr, Ne.symm h]

theorem findCol_oneHotCols_none (f : String) (cats : List String) (vals : List Value)
    (g : String) (hgen : ∀ s, f ++ "_" ++ s ≠ g) :
    findCol g (oneHotCols f cats vals) = none := by
  induction cats with
  | nil => rfl
  | cons c0 rest ih => simpa [oneHotCols, findCol, hgen c0] using ih

theorem numStep_inv (max_categories : Nat) (skip_features : List String)
    (st st' : DataFrame × List (String × MapperEntry)) (g : String)
    (h : numStep max_categories skip_features st g = some st') :
    st' = st ∨
      ∃ c cats b, st.1.getCol g = some c ∧ c.dtype = .categorical cats b ∧
        g ∉ skip_features ∧ numProcess max_categories st g cats c.vals = some st' := by
  unfold numStep at h
  cases hg : st.1.getCol g with
  | none => rw [hg] at h; exact absurd h (by simp)
  | some c =>
    rw [hg] at h
    replace h : (match c.dtype with
      | Dtype.categorical cats _ =>
        if g ∉ skip_features then numProcess max_categories st g cats c.vals
        else some st
      | _ => some st) = some st' := h
    cases hdt : c.dtype with
    | categorical cats b =>
      rw [hdt] at h
      replace h : (if g ∉ skip_features then numProcess max_categories st g cats c.vals
        else some st) = some st' := h
      by_cases hskip : g ∉ skip_features
      · rw [if_pos hskip] at h
        exact Or.inr ⟨c, cats, b, rfl, hdt, hskip, h⟩
      · rw [if_neg hskip] at h
        exact Or.inl (Option.some.injEq _ _ ▸ h).symm
    | text =>
      rw [hdt] at h
      replace h : some st = some st' := h
      exact Or.inl (Option.some.injEq _ _ ▸ h).symm
    | numeric =>
      rw [hdt] at h
      replace h : some st = some st' := h
      exact Or.inl (Option.some.injEq _ _ ▸ h).symm
    | boolean =>
      rw [hdt] at h
      replace h : some st = some st' := h
      exact Or.inl (Option.some.injEq _ _ ▸ h).symm
    | datetime =>
      rw [hdt] at h
      replace h : some st = some st' := h
      exact Or.inl (Option.some.injEq _ _ ▸ h).symm

theorem numProcess_preserve_some (max_categories : Nat)
    (st st' : DataFrame × List (String × MapperEntry)) (f : String)
    (cats : List String) (vals : List Value)
    (h : numProcess max_categories st f cats vals = some st')
    (g : String) (hgf : g ≠ f) (hgs : (st.1.getCol g).isSome) :
    st'.1.getCol g = st.1.getCol g ∧ lookupStr g st'.2 = lookupStr g st.2 := by
  unfold numProcess at h
  by_cases hlen : cats.length > max_categories
  · rw [if_pos hlen] at h
    obtain rfl : _ = st' := Option.some.injEq _ _ ▸ h
    exact ⟨getCol_setCol_ne st.1 _ g hgf, lookupStr_append_ne st.2 f g _ hgf⟩
  · rw [if_neg hlen] at h
    cases hjoin : (st.1.dropCol f).join (oneHotCols f cats vals) with
    | none => rw [hjoin] at h; exact absurd h (by simp)
    | some d =>
      rw [hjoin] at h
      obtain rfl : _ = st' := Option.some.injEq _ _ ▸ h
      have hdrop : (st.1.dropCol f).getCol g = st.1.getCol g :=
        getCol_dropCol_ne st.1 f g hgf
      refine ⟨?_, lookupStr_append_ne st.2 f g _ hgf⟩
      rw [getCol_join_isSome _ _ _ hjoin g (by rw [hdrop]; exact hgs)]
      exact hdrop

theorem numProcess_preserve_none (max_categories : Nat)
    (st st' : DataFrame × List (String × MapperEntry)) (f : String)
    (cats : List String) (vals : List Value)
    (h : numProcess max_categories st f cats vals = some st')
    (g : String) (hgf : g ≠ f) (hgn : st.1.getCol g = none)
    (hgen : ∀ s, f ++ "_" ++ s ≠ g) :
    st'.1.getCol g = none ∧ lookupStr g st'.2 = lookupStr g st.2 := by
  unfold numProcess at h
  by_cases hlen : cats.length > max_categories
  · rw [if_pos hlen] at h
    obtain rfl : _ = st' := Option.some.injEq _ _ ▸ h
    refine ⟨?_, lookupStr_append_ne st.2 f g _ hgf⟩
    rw [getCol_setCol_ne st.1 _ g hgf]
    exact hgn
  · rw [if_neg hlen] at h
    cases hjoin : (st.1.dropCol f).join (oneHotCols f cats vals) with
    | none => rw [hjoin] at h; exact absurd h (by simp)
    | some d =>
      rw [hjoin] at h
      obtain rfl : _ = st' := Option.some.injEq _ _ ▸ h
      have hdrop : (st.1.dropCol f).getCol g = none := by
        rw [getCol_dropCol_ne st.1 f g hgf]; exact hgn
      refine ⟨?_, lookupStr_append_ne st.2 f g _ hgf⟩
      rw [getCol_join_none _ _ _ hjoin g hdrop]
      exact findCol_oneHotCols_none f cats vals g hgen

theorem numStep_preserve_some (max_categories : Nat) (skip_features : List String)
    (st st' : DataFrame × List (String × MapperEntry)) (g : String)
    (h : numStep max_categories skip_features st g = some st') (f : String)
    (hfg : f ≠ g) (hfs : (st.1.getCol f).isSome) :
    st'.1.getCol f = st.1.getCol f ∧ lookupStr f st'.2 = lookupStr f st.2 := by
  rcases numStep_inv max_categories skip_features st st' g h with rfl | ⟨c, cats, b, hg, hdt, hskip, hp⟩
  · exact ⟨rfl, rfl⟩
  · exact numProcess_preserve_some max_categories st st' g cats c.vals hp f hfg hfs

theorem numStep_preserve_none (max_categories : Nat) (skip_features : List String)
    (st st' : DataFrame × List (String × MapperEntry)) (g : String)
    (h : numStep max_categories skip_features st g = some st') (f : String)
    (hfg : f ≠ g) (hfn : st.1.getCol f = none)
    (hgen : ∀ s, g ++ "_" ++ s ≠ f) :
    st'.1.getCol f = none ∧ lookupStr f st'.2 = lookupStr f st.2 := by
  rcases numStep_inv max_categories skip_features st st' g h with rfl | ⟨c, cats, b, hg, hdt, hskip, hp⟩
  · exact ⟨hfn, rfl⟩
  · exact numProcess_preserve_none max_categories st st' g cats c.vals hp f hfg hfn hgen

theorem numFold_preserve_some (max_categories : Nat) (skip_features : List String)
    (L : List String) (st st' : DataFrame × List (String × MapperEntry))
    (h : List.foldlM (numStep max_categories skip_features) st L = some st')
    (f : String) (hf : f ∉ L) (hfs : (st.1.getCol f).isSome) :
    st'.1.getCol f = st.1.getCol f ∧ lookupStr f st'.2 = lookupStr f st.2 := by
  induction L generalizing st with
  | nil =>
    simp only [List.foldlM_nil] at h
    obtain rfl : st = st' := Option.some.injEq _ _ ▸ h
    exact ⟨rfl, rfl⟩
  | cons g rest ih =>
    rw [List.foldlM_cons] at h
    rcases Option.bind_eq_some.mp h with ⟨st₁, hstep, hrest⟩
    have hfg : f ≠ g := fun he => hf (he ▸ List.mem_cons_self g rest)
    have hfr : f ∉ rest := fun hm => hf (List.mem_cons_of_mem g hm)
    have h1 := numStep_preserve_some max_categories skip_features st st₁ g hstep f hfg hfs
    have hfs₁ : (st₁.1.getCol f).isSome := by rw [h1.1]; exact hfs
    have h2 := ih st₁ hrest hfr hfs₁
    exact ⟨h2.1.trans h1.1, h2.2.trans h1.2⟩

theorem numFold_preserve_none (max_categories : Nat) (skip_features : List String)
    (L : List String) (st st' : DataFrame × List (String × MapperEntry))
    (h : List.foldlM (numStep max_categories skip_features) st L = some st')
    (f : String) (hf : f ∉ L) (hfn : st.1.getCol f = none)
    (hgen : ∀ g ∈ L, ∀ s, g ++ "_" ++ s ≠ f) :
    st'.1.getCol f = none ∧ lookupStr f st'.2 = lookupStr f st.2 := by
  induction L generalizing st with
  | nil =>
    simp only [List.foldlM_nil] at h
    obtain rfl : st = st' := Option.some.injEq _ _ ▸ h
    exact ⟨hfn, rfl⟩
  | cons g rest ih =>
    rw [List.foldlM_cons] at h
    rcases Option.bind_eq_some.mp h with ⟨st₁, hstep, hrest⟩
    have hfg : f ≠ g := fun he => hf (he ▸ List.mem_cons_self g rest)
    have hfr : f ∉ rest := fun hm => hf (List.mem_cons_of_mem g hm)
    have h1 := numStep_preserve_none max_categories skip_features st st₁ g hstep f hfg hfn
      (hgen g (List.mem_cons_self g rest))
    have h2 := ih st₁ hrest hfr h1.1 (fun g' hg' => hgen g' (List.mem_cons_of_mem g hg'))
    exact ⟨h2.1, h2.2.trans h1.2⟩

theorem numericalize_split (df : DataFrame) (max_categories : Nat)
    (skip_features : List String) (df' : DataFrame)
    (mp : List (String × MapperEntry))
    (h : numericalize_categories df max_categories skip_features = some (df', mp))
    (hnodup : df.colNames.Nodup) (f : String) (hfmem : f ∈ df.colNames) :
    ∃ L₁ L₂ st₁ st₂, df.colNames = L₁ ++ f :: L₂ ∧ f ∉ L₁ ∧ f ∉ L₂ ∧
      List.foldlM (numStep max_categories skip_features)
        (df, ([] : List (String × MapperEntry))) L₁ = some st₁ ∧
      numStep max_categories skip_features st₁ f = some st₂ ∧
      List.foldlM (numStep max_categories skip_features) st₂ L₂ = some (df', mp) := by
  obtain ⟨L₁, L₂, hsplit, hf1, hf2⟩ := mem_split_nodup df.colNames f hfmem hnodup
  unfold numericalize_categories at h
  rw [hsplit] at h
  rw [List.foldlM_append] at h
  rcases Option.bind_eq_some.mp h with ⟨st₁, h1, h23⟩
  rw [List.foldlM_cons] at h23
  rcases Option.bind_eq_some.mp h23 with ⟨st₂, h2, h3⟩
  exact ⟨L₁, L₂, st₁, st₂, hsplit, hf1, hf2, h1, h2, h3⟩

theorem numStep_codes_eq (max_categories : Nat) (skip_features : List String)
    (st : DataFrame × List (String × MapperEntry)) (f : String) (c : Column)
    (cats : List String) (b : Bool)
    (hc : st.1.getCol f = some c) (hdt : c.dtype = .categorical cats b)
    (hskip : f ∉ skip_features) (hlen : cats.length > max_categories) :
    numStep max_categories skip_features st f =
      some (st.1.setCol ⟨f, .numeric,
              c.vals.map (fun v => .num ((catCode cats v + 1 : Int) : ℚ))⟩,
            st.2 ++ [(f, .coded cats.enum)]) := by
  unfold numStep
  rw [hc]
  show (match c.dtype with
    | Dtype.categorical cats _ =>
      if f ∉ skip_features then numProcess max_categories st f cats c.vals
      else some st
    | _ => some st) = _
  rw [hdt]
  show (if f ∉ skip_features then numProcess max_categories st f cats c.vals
    else some st) = _
  rw [if_pos hskip]
  unfold numProcess
  rw [if_pos hlen]

theorem numStep_onehot_inv (max_categories : Nat) (skip_features : List String)
    (st st' : DataFrame × List (String × MapperEntry)) (f : String) (c : Column)
    (cats : List String) (b : Bool)
    (hc : st.1.getCol f = some c) (hdt : c.dtype = .categorical cats b)
    (hskip : f ∉ skip_features) (hlen : ¬ cats.length > max_categories)
    (h : numStep max_categories skip_features st f = some st') :
    ∃ d, (st.1.dropCol f).join (oneHotCols f cats c.vals) = some d ∧
      st' = (d, st.2 ++ [(f, onehotMarker)]) := by
  unfold numStep at h
  rw [hc] at h
  replace h : (match c.dtype with
    | Dtype.categorical cats _ =>
      if f ∉ skip_features then numProcess max_categories st f cats c.vals
      else some st
    | _ => some st) = some st' := h
  rw [hdt] at h
  replace h : (if f ∉ skip_features then numProcess max_categories st f cats c.vals
    else some st) = some st' := h
  rw [if_pos hskip] at h
  unfold numProcess at h
  rw [if_neg hlen] at h
  cases hjoin : (st.1.dropCol f).join (oneHotCols f cats c.vals) with
  | none => rw [hjoin] at h; exact absurd h (by simp)
  | some d =>
    rw [hjoin] at h
    exact ⟨d, rfl, ((Option.some.injEq _ _ ▸ h)).symm⟩

theorem getCol_eq_none_of_not_mem (df : DataFrame) (f : String) (h : f ∉ df.colNames) :
    df.getCol f = none := by
  cases hg : df.getCol f with
  | none => rfl
  | some c => exact absurd (mem_of_getCol_isSome df f (by rw [hg]; rfl)) h

theorem genName_ne_self (f s : String) : f ++ "_" ++ s ≠ f := by
  intro he
  have hlen := congrArg String.length he
  simp only [String.length_append] at hlen
  have : ("_" : String).length = 1 := rfl
  omega

theorem findCol_oneHotCols_mem (f : String) (cats : List String) (vals : List Value)
    (cat : String) (hmem : cat ∈ cats)
    (hnd : (cats.map (fun c0 => f ++ "_" ++ c0)).Nodup) :
    findCol (f ++ "_" ++ cat) (oneHotCols f cats vals) =
      some ⟨f ++ "_" ++ cat, .numeric,
        vals.map (fun v => .num (if v = .str cat then 1 else 0))⟩ := by
  induction cats with
  | nil => exact absurd hmem (List.not_mem_nil cat)
  | cons c0 rest ih =>
    rw [List.map_cons] at hnd
    have hnd' := List.nodup_cons.mp hnd
    rcases List.mem_cons.mp hmem with rfl | hmem'
    · simp [oneHotCols, findCol]
    · have hne : (f ++ "_" ++ c0) ≠ (f ++ "_" ++ cat) := by
        intro he
        exact hnd'.1 (he ▸ List.mem_map.mpr ⟨cat, hmem', rfl⟩)
      simp only [oneHotCols, List.map_cons, findCol]
      rw [if_neg hne]
      exact ih hmem' hnd'.2

/-- Master lemma for the integer-codes branch of
`numericalize_categories`: the column is replaced by `.cat.codes + 1`
and the mapper records `dict(enumerate(categories))`. -/
theorem numericalize_codes_col (df : DataFrame) (max_categories : Nat)
    (skip_features : List String) (df' : DataFrame) (mp : List (String × MapperEntry))
    (h : numericalize_categories df max_categories skip_features = some (df', mp))
    (hnodup : df.colNames.Nodup)
    (f : String) (c : Column) (cats : List String) (b : Bool)
    (hc : df.getCol f = some c) (hdt : c.dtype = .categorical cats b)
    (hskip : f ∉ skip_features) (hlen : cats.length > max_categories) :
    df'.getCol f = some ⟨f, .numeric,
        c.vals.map (fun v => .num ((catCode cats v + 1 : Int) : ℚ))⟩ ∧
    lookupStr f mp = some (.coded cats.enum) := by
  have hfmem : f ∈ df.colNames := mem_of_getCol_isSome df f (by rw [hc]; rfl)
  obtain ⟨L₁, L₂, st₁, st₂, hsplit, hf1, hf2, h1, h2, h3⟩ :=
    numericalize_split df max_categories skip_features df' mp h hnodup f hfmem
  have hpre := numFold_preserve_some _ _ L₁ (df, []) st₁ h1 f hf1
    (by show (df.getCol f).isSome; rw [hc]; rfl)
  have hc₁ : st₁.1.getCol f = some c := by rw [hpre.1]; exact hc
  have hlk₁ : lookupStr f st₁.2 = none := by rw [hpre.2]; rfl
  rw [numStep_codes_eq _ _ st₁ f c cats b hc₁ hdt hskip hlen] at h2
  obtain rfl : _ = st₂ := Option.some.injEq _ _ ▸ h2
  have hset : st₁.1.setCol ⟨f, .numeric,
      c.vals.map (fun v => .num ((catCode cats v + 1 : Int) : ℚ))⟩ =
      (st₁.1.setCol ⟨f, .numeric,
        c.vals.map (fun v => .num ((catCode cats v + 1 : Int) : ℚ))⟩, st₁.2 ++
          [(f, MapperEntry.coded cats.enum)]).1 := rfl
  have hgot : ((st₁.1.setCol ⟨f, .numeric,
      c.vals.map (fun v => .num ((catCode cats v + 1 : Int) : ℚ))⟩, st₁.2 ++
        [(f, MapperEntry.coded cats.enum)]).1).getCol f =
      some ⟨f, .numeric, c.vals.map (fun v => .num ((catCode cats v + 1 : Int) : ℚ))⟩ :=
    getCol_setCol_self st₁.1 _
  have hfin := numFold_preserve_some _ _ L₂ _ (df', mp) h3 f hf2 (by rw [hgot]; rfl)
  constructor
  · rw [hfin.1, hgot]
  · rw [hfin.2]
    show lookupStr f (st₁.2 ++ [(f, MapperEntry.coded cats.enum)]) = _
    rw [lookupStr_append, hlk₁]
    simp [lookupStr]

/-- Master lemma for the one-hot branch of `numericalize_categories`:
one indicator column per category appears, the source column is
dropped, and the mapper records the literal marker `"one-hot"`. -/
theorem numericalize_onehot_col (df : DataFrame) (max_categories : Nat)
    (skip_features : List String) (df' : DataFrame) (mp : List (String × MapperEntry))
    (h : numericalize_categories df max_categories skip_features = some (df', mp))
    (hnodup : df.colNames.Nodup)
    (f : String) (c : Column) (cats : List String) (b : Bool)
    (hc : df.getCol f = some c) (hdt : c.dtype = .categorical cats b)
    (hskip : f ∉ skip_features) (hlen : ¬ cats.length > max_categories)
    (hgennd : (cats.map (fun cat => f ++ "_" ++ cat)).Nodup)
    (hfreshcats : ∀ cat ∈ cats, (f ++ "_" ++ cat) ∉ df.colNames)
    (hfresh1 : ∀ g ∈ df.colNames, g ≠ f → ∀ s, (g ++ "_" ++ s) ≠ f)
    (hfresh2 : ∀ g ∈ df.colNames, g ≠ f →
      ∀ s, ∀ cat ∈ cats, (g ++ "_" ++ s) ≠ (f ++ "_" ++ cat)) :
    (∀ cat ∈ cats, df'.getCol (f ++ "_" ++ cat) =
      some ⟨f ++ "_" ++ cat, .numeric,
        c.vals.map (fun v => .num (if v = .str cat then 1 else 0))⟩) ∧
    df'.getCol f = none ∧
    lookupStr f mp = some onehotMarker := by
  have hfmem : f ∈ df.colNames := mem_of_getCol_isSome df f (by rw [hc]; rfl)
  obtain ⟨L₁, L₂, st₁, st₂, hsplit, hf1, hf2, h1, h2, h3⟩ :=
    numericalize_split df max_categories skip_features df' mp h hnodup f hfmem
  have hL1sub : ∀ g ∈ L₁, g ∈ df.colNames := by
    intro g hg; rw [hsplit]; exact List.mem_append.mpr (Or.inl hg)
  have hL2sub : ∀ g ∈ L₂, g ∈ df.colNames := by
    intro g hg; rw [hsplit]
    exact List.mem_append.mpr (Or.inr (List.mem_cons.mpr (Or.inr hg)))
  have hL1ne : ∀ g ∈ L₁, g ≠ f := fun g hg he => hf1 (he ▸ hg)
  have hL2ne : ∀ g ∈ L₂, g ≠ f := fun g hg he => hf2 (he ▸ hg)
  have hpre := numFold_preserve_some _ _ L₁ (df, []) st₁ h1 f hf1
    (by show (df.getCol f).isSome; rw [hc]; rfl)
  have hc₁ : st₁.1.getCol f = some c := by rw [hpre.1]; exact hc
  have hlk₁ : lookupStr f st₁.2 = none := by rw [hpre.2]; rfl
  obtain ⟨d, hjoin, rfl⟩ :=
    numStep_onehot_inv _ _ st₁ st₂ f c cats b hc₁ hdt hskip hlen h2
  refine ⟨?_, ?_, ?_⟩
  · intro cat hcat
    have hgnone₀ : df.getCol (f ++ "_" ++ cat) = none :=
      getCol_eq_none_of_not_mem df _ (hfreshcats cat hcat)
    have hgnone₁ := numFold_preserve_none _ _ L₁ (df, []) st₁ h1 (f ++ "_" ++ cat) 
      (fun hm => hfreshcats cat hcat (hL1sub _ hm))
      (by show df.getCol (f ++ "_" ++ cat) = none; exact hgnone₀)
      (fun g hg s => hfresh2 g (hL1sub g hg) (hL1ne g hg) s cat hcat)
    have hdnone : (st₁.1.dropCol f).getCol (f ++ "_" ++ cat) = none := by
      rw [getCol_dropCol_ne st₁.1 f _ (genName_ne_self f cat)]
      exact hgnone₁.1
    have hdcol : d.getCol (f ++ "_" ++ cat) =
        some ⟨f ++ "_" ++ cat, .numeric,
          c.vals.map (fun v => .num (if v = .str cat then 1 else 0))⟩ := by
      rw [getCol_join_none _ _ _ hjoin _ hdnone]
      exact findCol_oneHotCols_mem f cats c.vals cat hcat hgennd
    have hfin := numFold_preserve_some _ _ L₂ _ (df', mp) h3 (f ++ "_" ++ cat)
      (fun hm => hfreshcats cat hcat (hL2sub _ hm))
      (by show (d.getCol (f ++ "_" ++ cat)).isSome; rw [hdcol]; rfl)
    rw [hfin.1]
    exact hdcol
  · have hdnone : d.getCol f = none := by
      rw [getCol_join_none _ _ _ hjoin f (getCol_dropCol_self st₁.1 f)]
      exact findCol_oneHotCols_none f cats c.vals f (fun s => genName_ne_self f s)
    have hfin := numFold_preserve_none _ _ L₂ _ (df', mp) h3 f hf2
      (by show d.getCol f = none; exact hdnone)
      (fun g hg s => hfresh1 g (hL2sub g hg) (hL2ne g hg) s)
    exact hfin.1
  · have hfin := numFold_preserve_none _ _ L₂ _ (df', mp) h3 f hf2
      (by show d.getCol f = none;
          rw [getCol_join_none _ _ _ hjoin f (getCol_dropCol_self st₁.1 f)];
          exact findCol_oneHotCols_none f cats c.vals f (fun s => genName_ne_self f s))
      (fun g hg s => hfresh1 g (hL2sub g hg) (hL2ne g hg) s)
    rw [hfin.2]
    show lookupStr f (st₁.2 ++ [(f, onehotMarker)]) = _
    rw [lookupStr_append, hlk₁]
    simp [lookupStr]

/-! ### Claims C1 and C10: the integer-codes branch -/

theorem mem_enum_indexOf (cats : List String) (s : String) (h : s ∈ cats) :
    (cats.indexOf s, s) ∈ cats.enum :=
  List.mk_mem_enum_iff_getElem?.mpr (by
    rw [← List.get?_eq_getElem?]
    exact List.indexOf_get? h)

theorem str_mem_of_validCatVal (cats : List String) (s : String)
    (h : validCatVal cats (Value.str s) = true) : s ∈ cats := by
  have : decide (s ∈ cats) = true := h
  exact of_decide_eq_true this

/-- C1 counterexample: on a categorical column with a missing entry the
codes branch emits the output code 0 (the mapper's only key is the
zero-based 0, and 0 - 1 = -1 is not a key), refuting "every output
code, after subtracting 1, is a valid key in the returned mapper". -/
theorem C1_counterexample :
    numericalize_categories wdfC1 0 [] =
      some (wdfC1out, [("c", .coded [(0, "a")])]) ∧
    wdfC1out.getCol "c" = some ⟨"c", .numeric, [.num 1, .num 0]⟩ ∧
    ((0 : Int) - 1 ≠ ((0 : Nat) : Int)) :=
  ⟨by decide, by decide, by decide⟩

/-- C1 (amended): for a categorical column whose category count exceeds
the threshold, the column is replaced by the zero-based category code
plus one, the mapper maps the column to `dict(enumerate(categories))`,
and every output code *of a non-missing entry*, after subtracting 1, is
a valid key of that dictionary whose value reconstructs the original
category (missing entries are encoded 0 and have no key). -/
theorem C1_theorem (df : DataFrame) (max_categories : Nat)
    (skip_features : List String) (df' : DataFrame) (mp : List (String × MapperEntry))
    (h : numericalize_categories df max_categories skip_features = some (df', mp))
    (hnodup : df.colNames.Nodup)
    (f : String) (c : Column) (cats : List String) (b : Bool)
    (hc : df.getCol f = some c) (hdt : c.dtype = .categorical cats b)
    (hskip : f ∉ skip_features) (hlen : cats.length > max_categories)
    (hvals : ∀ v ∈ c.vals, validCatVal cats v = true) :
    df'.getCol f = some ⟨f, .numeric,
        c.vals.map (fun v => .num ((catCode cats v + 1 : Int) : ℚ))⟩ ∧
    lookupStr f mp = some (.coded cats.enum) ∧
    (∀ s, Value.str s ∈ c.vals →
      ∃ p ∈ cats.enum, (p.1 : Int) = (catCode cats (Value.str s) + 1) - 1 ∧ p.2 = s) := by
  obtain ⟨hcol, hmp⟩ := numericalize_codes_col df max_categories skip_features df' mp h
    hnodup f c cats b hc hdt hskip hlen
  refine ⟨hcol, hmp, ?_⟩
  intro s hs
  have hmem : s ∈ cats := str_mem_of_validCatVal cats s (hvals _ hs)
  refine ⟨(cats.indexOf s, s), mem_enum_indexOf cats s hmem, ?_, rfl⟩
  show ((cats.indexOf s : Nat) : Int) =
    (if s ∈ cats then (cats.indexOf s : Int) else -1) + 1 - 1
  rw [if_pos hmem]
  omega

/-- C1 witness: concrete run of the amended claim on a two-category
column containing "b" and a missing entry. -/
theorem C1_witness :
    lookupStr "c" [("c", MapperEntry.coded [(0, "a"), (1, "b")])] =
      some (.coded [(0, "a"), (1, "b")]) ∧
    ((1 : Nat) : Int) = (catCode ["a", "b"] (Value.str "b") + 1) - 1 ∧
    (((1 : Nat), "b") ∈ (["a", "b"].enum)) := by
  have h := C1_theorem ⟨[⟨"c", .categorical ["a", "b"] false, [.str "b", .na]⟩]⟩ 0 []
    ⟨[⟨"c", .numeric, [.num 2, .num 0]⟩]⟩ [("c", .coded [(0, "a"), (1, "b")])]
    (by decide) (by decide) "c" ⟨"c", .categorical ["a", "b"] false, [.str "b", .na]⟩
    ["a", "b"] false (by decide) (by decide) (by decide) (by decide) (by decide)
  exact ⟨h.2.1, by decide, by decide⟩

/-- C10: in the codes branch a missing entry is encoded as 0 (code -1
plus the +1 offset), 0 is never assigned to an actual category (their
codes are at least 1), and no mapper key equals 0 - 1. -/
theorem C10_theorem (df : DataFrame) (max_categories : Nat)
    (skip_features : List String) (df' : DataFrame) (mp : List (String × MapperEntry))
    (h : numericalize_categories df max_categories skip_features = some (df', mp))
    (hnodup : df.colNames.Nodup)
    (f : String) (c : Column) (cats : List String) (b : Bool)
    (hc : df.getCol f = some c) (hdt : c.dtype = .categorical cats b)
    (hskip : f ∉ skip_features) (hlen : cats.length > max_categories)
    (hvals : ∀ v ∈ c.vals, validCatVal cats v = true) :
    df'.getCol f = some ⟨f, .numeric,
        c.vals.map (fun v => .num ((catCode cats v + 1 : Int) : ℚ))⟩ ∧
    (∀ v ∈ c.vals, v = Value.na → ((catCode cats v + 1 : Int) : ℚ) = 0) ∧
    (∀ v ∈ c.vals, v ≠ Value.na → (1 : Int) ≤ catCode cats v + 1) ∧
    (∀ p ∈ cats.enum, (p.1 : Int) ≠ 0 - 1) := by
  obtain ⟨hcol, hmp⟩ := numericalize_codes_col df max_categories skip_features df' mp h
    hnodup f c cats b hc hdt hskip hlen
  refine ⟨hcol, ?_, ?_, ?_⟩
  · intro v _ hv
    subst hv
    rfl
  · intro v hv hne
    have hval := hvals v hv
    cases v with
    | na => exact absurd rfl hne
    | str s =>
      have hmem : s ∈ cats := str_mem_of_validCatVal cats s hval
      show (1 : Int) ≤ (if s ∈ cats then (cats.indexOf s : Int) else -1) + 1
      rw [if_pos hmem]
      omega
    | num q => exact absurd hval (by simp [validCatVal])
    | bool b0 => exact absurd hval (by simp [validCatVal])
    | date d0 => exact absurd hval (by simp [validCatVal])
  · intro p _
    omega

/-- C10 witness: concrete run with a missing entry encoded as 0. -/
theorem C10_witness :
    wdfC1out.getCol "c" =
      some ⟨"c", .numeric,
        [Value.str "a", Value.na].map
          (fun v => .num ((catCode ["a"] v + 1 : Int) : ℚ))⟩ ∧
    ((catCode ["a"] Value.na + 1 : Int) : ℚ) = 0 := by
  have h := C10_theorem wdfC1 0 [] wdfC1out [("c", .coded [(0, "a")])]
    (by decide) (by decide) "c" ⟨"c", .categorical ["a"] false, [.str "a", .na]⟩
    ["a"] false (by decide) (by decide) (by decide) (by decide) (by decide)
  exact ⟨h.1, h.2.1 Value.na (by decide) rfl⟩

/-! ### Claim C2: the one-hot branch -/

theorem sum_ind_notmem (cats : List String) (v : Value)
    (hv : ∀ cat ∈ cats, v ≠ Value.str cat) :
    (cats.map (fun cat => if v = Value.str cat then (1 : ℚ) else 0)).sum = 0 := by
  induction cats with
  | nil => rfl
  | cons c0 rest ih =>
    rw [List.map_cons, List.sum_cons, if_neg (hv c0 (List.mem_cons_self c0 rest))]
    rw [ih (fun cat hcat => hv cat (List.mem_cons_of_mem c0 hcat))]
    norm_num

theorem sum_ind_mem (cats : List String) (s : String) (hmem : s ∈ cats)
    (hnd : cats.Nodup) :
    (cats.map (fun cat => if Value.str s = Value.str cat then (1 : ℚ) else 0)).sum = 1 := by
  induction cats with
  | nil => exact absurd hmem (List.not_mem_nil s)
  | cons c0 rest ih =>
    have hnd' := List.nodup_cons.mp hnd
    rw [List.map_cons, List.sum_cons]
    rcases List.mem_cons.mp hmem with rfl | hmem'
    · rw [if_pos rfl]
      rw [sum_ind_notmem rest (Value.str s)
        (fun cat hcat he => hnd'.1 (by
          have : s = cat := by simpa using he
          exact this ▸ hcat))]
      norm_num
    · have hne : s ≠ c0 := fun he => hnd'.1 (he ▸ hmem')
      rw [if_neg (by simp [hne])]
      rw [ih hmem' hnd'.2]
      norm_num

unseal Rat.add in
/-- C2 counterexample: a one-hot expanded column with a missing entry
yields an all-zero indicator row, refuting "for every row the sum of
the generated indicator columns equals 1". -/
theorem C2_counterexample :
    numericalize_categories wdfC2 1 [] = some (wdfC2out, [("c", onehotMarker)]) ∧
    (["a"].map (fun cat => numAt wdfC2out ("c" ++ "_" ++ cat) 0)).sum = 0 ∧
    ((0 : ℚ) ≠ 1) :=
  ⟨by decide, by decide, by decide⟩

/-- C2 (amended): for a categorical column whose category count is at
most the threshold, one indicator column per category named
`{column}_{category}` is produced, the original column is dropped, the
mapper records the literal marker "one-hot", and for every row the sum
of the generated indicator columns is 1 when the source entry is
non-missing and 0 when it is missing. -/
theorem C2_theorem (df : DataFrame) (max_categories : Nat)
    (skip_features : List String) (df' : DataFrame) (mp : List (String × MapperEntry))
    (h : numericalize_categories df max_categories skip_features = some (df', mp))
    (hnodup : df.colNames.Nodup)
    (f : String) (c : Column) (cats : List String) (b : Bool)
    (hc : df.getCol f = some c) (hdt : c.dtype = .categorical cats b)
    (hskip : f ∉ skip_features) (hlen : ¬ cats.length > max_categories)
    (hcatsnd : cats.Nodup)
    (hgennd : (cats.map (fun cat => f ++ "_" ++ cat)).Nodup)
    (hfreshcats : ∀ cat ∈ cats, (f ++ "_" ++ cat) ∉ df.colNames)
    (hfresh1 : ∀ g ∈ df.colNames, g ≠ f → ∀ s, (g ++ "_" ++ s) ≠ f)
    (hfresh2 : ∀ g ∈ df.colNames, g ≠ f →
      ∀ s, ∀ cat ∈ cats, (g ++ "_" ++ s) ≠ (f ++ "_" ++ cat))
    (hvals : ∀ v ∈ c.vals, validCatVal cats v = true) :
    (∀ cat ∈ cats, df'.getCol (f ++ "_" ++ cat) =
      some ⟨f ++ "_" ++ cat, .numeric,
        c.vals.map (fun v => .num (if v = .str cat then 1 else 0))⟩) ∧
    df'.getCol f = none ∧
    lookupStr f mp = some onehotMarker ∧
    (∀ i, i < c.vals.length →
      (cats.map (fun cat => numAt df' (f ++ "_" ++ cat) i)).sum =
        if c.vals.getD i Value.na = Value.na then 0 else 1) := by
  obtain ⟨hcols, hdropped, hmarker⟩ := numericalize_onehot_col df max_categories
    skip_features df' mp h hnodup f c cats b hc hdt hskip hlen hgennd hfreshcats
    hfresh1 hfresh2
  refine ⟨hcols, hdropped, hmarker, ?_⟩
  intro i hi
  have hterm : ∀ cat ∈ cats, numAt df' (f ++ "_" ++ cat) i =
      if c.vals.getD i Value.na = Value.str cat then (1 : ℚ) else 0 := by
    intro cat hcat
    unfold numAt
    rw [hcols cat hcat]
    have hi' : i < (c.vals.map
        (fun v => Value.num (if v = Value.str cat then (1 : ℚ) else 0))).length := by
      simpa using hi
    show (match (c.vals.map
        (fun v => Value.num (if v = Value.str cat then (1 : ℚ) else 0))).getD i
          Value.na with
      | .num q => q
      | _ => 0) = _
    rw [List.getD_eq_getElem _ _ hi', List.getElem_map, List.getD_eq_getElem _ _ hi]
  rw [List.map_congr_left hterm]
  cases hv : c.vals.getD i Value.na with
  | na =>
    rw [if_pos rfl]
    exact sum_ind_notmem cats Value.na (fun cat _ => by simp)
  | str s =>
    rw [if_neg (by simp)]
    have hmem : Value.str s ∈ c.vals := by
      rw [← hv, List.getD_eq_getElem _ _ hi]
      exact List.getElem_mem _
    exact sum_ind_mem cats s
      (str_mem_of_validCatVal cats s (hvals _ hmem)) hcatsnd
  | num q =>
    have hmem : Value.num q ∈ c.vals := by
      rw [← hv, List.getD_eq_getElem _ _ hi]
      exact List.getElem_mem _
    exact absurd (hvals _ hmem) (by simp [validCatVal])
  | bool b0 =>
    have hmem : Value.bool b0 ∈ c.vals := by
      rw [← hv, List.getD_eq_getElem _ _ hi]
      exact List.getElem_mem _
    exact absurd (hvals _ hmem) (by simp [validCatVal])
  | date d0 =>
    have hmem : Value.date d0 ∈ c.vals := by
      rw [← hv, List.getD_eq_getElem _ _ hi]
      exact List.getElem_mem _
    exact absurd (hvals _ hmem) (by simp [validCatVal])

/-- C2 witness: concrete one-hot run; the row with value "a" sums to 1. -/
theorem C2_witness :
    lookupStr "c" [("c", onehotMarker)] = some onehotMarker ∧
    (["a"].map (fun cat => numAt wdfC2bout ("c" ++ "_" ++ cat) 0)).sum =
      if [Value.str "a", Value.na].getD 0 Value.na = Value.na then 0 else 1 := by
  have h := C2_theorem wdfC2b 1 [] wdfC2bout [("c", onehotMarker)]
    (by decide) (by decide) "c" ⟨"c", .categorical ["a"] false, [.str "a", .na]⟩
    ["a"] false (by decide) (by decide) (by decide) (by decide) (by decide) (by decide)
    (by decide)
    (by
      intro g hg hne s
      have hgc : g = "c" := by simpa [wdfC2b, DataFrame.colNames] using hg
      exact absurd hgc hne)
    (by
      intro g hg hne s cat hcat
      have hgc : g = "c" := by simpa [wdfC2b, DataFrame.colNames] using hg
      exact absurd hgc hne)
    (by decide)
  exact ⟨h.2.2.1, h.2.2.2 0 (by decide)⟩

/-! ### Claim C7: row count preservation -/

theorem findCol_mem (f : String) (l : List Column) (c : Column)
    (h : findCol f l = some c) : c ∈ l := by
  induction l with
  | nil => simp [findCol] at h
  | cons x rest ih =>
    by_cases hx : x.name = f
    · simp only [findCol, hx, if_true, Option.some.injEq] at h
      exact List.mem_cons.mpr (Or.inl h.symm)
    · simp only [findCol, hx, if_false] at h
      exact List.mem_cons.mpr (Or.inr (ih h))

theorem convertStep_hasHeight (ord skip : List String) (df : DataFrame) (f : String)
    (n : Nat) (hdf : HasHeight df n) : HasHeight (convertStep ord skip df f) n := by
  unfold convertStep
  cases hg : df.getCol f with
  | none => exact hdf
  | some c =>
    show HasHeight (if f ∉ skip ∧ isStringDtype c.dtype = true
      then df.setCol (toCategorical c (decide (f ∈ ord))) else df) n
    by_cases hcond : f ∉ skip ∧ isStringDtype c.dtype = true
    · rw [if_pos hcond]
      exact hasHeight_setCol df _ n hdf (hdf c (findCol_mem f df.cols c hg))
    · rw [if_neg hcond]
      exact hdf

theorem convertFold_hasHeight (ord skip : List String) (L : List String)
    (d : DataFrame) (n : Nat) (hd : HasHeight d n) :
    HasHeight (L.foldl (convertStep ord skip) d) n := by
  induction L generalizing d with
  | nil => exact hd
  | cons g rest ih =>
    rw [List.foldl_cons]
    exact ih _ (convertStep_hasHeight ord skip d g n hd)

theorem oneHotCols_heights (f : String) (cats : List String) (vals : List Value)
    (n : Nat) (hv : vals.length = n) :
    ∀ c ∈ oneHotCols f cats vals, c.vals.length = n := by
  intro c hc
  rcases List.mem_map.mp hc with ⟨cat, _, rfl⟩
  simpa using hv

theorem numProcess_hasHeight (max_categories : Nat)
    (st st' : DataFrame × List (String × MapperEntry)) (f : String)
    (cats : List String) (vals : List Value)
    (h : numProcess max_categories st f cats vals = some st') (n : Nat)
    (hst : HasHeight st.1 n) (hvlen : vals.length = n) : HasHeight st'.1 n := by
  unfold numProcess at h
  by_cases hlen : cats.length > max_categories
  · rw [if_pos hlen] at h
    obtain rfl : _ = st' := Option.some.injEq _ _ ▸ h
    exact hasHeight_setCol st.1 _ n hst (by simpa using hvlen)
  · rw [if_neg hlen] at h
    cases hjoin : (st.1.dropCol f).join (oneHotCols f cats vals) with
    | none => rw [hjoin] at h; exact absurd h (by simp)
    | some d =>
      rw [hjoin] at h
      obtain rfl : _ = st' := Option.some.injEq _ _ ▸ h
      exact hasHeight_join _ _ _ hjoin n (hasHeight_dropCol st.1 f n hst)
        (oneHotCols_heights f cats vals n hvlen)

theorem numStep_hasHeight (max_categories : Nat) (skip_features : List String)
    (st st' : DataFrame × List (String × MapperEntry)) (g : String)
    (h : numStep max_categories skip_features st g = some st') (n : Nat)
    (hst : HasHeight st.1 n) : HasHeight st'.1 n := by
  rcases numStep_inv max_categories skip_features st st' g h with rfl |
    ⟨c, cats, b, hg, hdt, hskip, hp⟩
  · exact hst
  · exact numProcess_hasHeight max_categories st st' g cats c.vals hp n hst
      (hst c (findCol_mem g st.1.cols c hg))

theorem numFold_hasHeight (max_categories : Nat) (skip_features : List String)
    (L : List String) (st st' : DataFrame × List (String × MapperEntry))
    (h : List.foldlM (numStep max_categories skip_features) st L = some st') (n : Nat)
    (hst : HasHeight st.1 n) : HasHeight st'.1 n := by
  induction L generalizing st with
  | nil =>
    simp only [List.foldlM_nil] at h
    obtain rfl : st = st' := Option.some.injEq _ _ ▸ h
    exact hst
  | cons g rest ih =>
    rw [List.foldlM_cons] at h
    rcases Option.bind_eq_some.mp h with ⟨st₁, hstep, hrest⟩
    exact ih st₁ hrest (numStep_hasHeight max_categories skip_features st st₁ g hstep n hst)

theorem fillWith_length (m : Option ℚ) (vals : List Value) :
    (fillWith m vals).length = vals.length := by
  cases m with
  | none => rfl
  | some q => simp [fillWith]

theorem interpStep_hasHeight (skip_features : List String)
    (st : DataFrame × List (String × Option ℚ)) (f : String) (n : Nat)
    (hst : HasHeight st.1 n) : HasHeight (interpStep skip_features st f).1 n := by
  unfold interpStep
  cases hg : st.1.getCol f with
  | none => exact hst
  | some c =>
    show HasHeight ((if f ∉ skip_features ∧ isNumericDtype c.dtype = true then
      (((st.1.setCol ⟨f ++ "_missing", .boolean,
          c.vals.map (fun v => .bool (decide (v = .na)))⟩).setCol
        ⟨f, c.dtype, fillWith (medianQ (numsOf c.vals)) c.vals⟩),
        st.2 ++ [(f, medianQ (numsOf (fillWith (medianQ (numsOf c.vals)) c.vals)))])
      else st).1) n
    by_cases hcond : f ∉ skip_features ∧ isNumericDtype c.dtype = true
    · rw [if_pos hcond]
      have hclen : c.vals.length = n := hst c (findCol_mem f st.1.cols c hg)
      refine hasHeight_setCol _ _ n (hasHeight_setCol _ _ n hst ?_) ?_
      · simpa using hclen
      · rw [fillWith_length]
        exact hclen
    · rw [if_neg hcond]
      exact hst

theorem interpFold_hasHeight (skip_features : List String) (L : List String)
    (st : DataFrame × List (String × Option ℚ)) (n : Nat)
    (hst : HasHeight st.1 n) :
    HasHeight ((L.foldl (interpStep skip_features) st).1) n := by
  induction L generalizing st with
  | nil => exact hst
  | cons g rest ih =>
    rw [List.foldl_cons]
    exact ih _ (interpStep_hasHeight skip_features st g n hst)

theorem dateAttrFold_hasHeight (c : Column) (stem : String) (attrs : List String)
    (d : DataFrame) (n : Nat) (hd : HasHeight d n) (hclen : c.vals.length = n) :
    HasHeight (attrs.foldl (fun d attr =>
      d.setCol ⟨stem ++ "_" ++ attr, attrDtype attr, c.vals.map (dtAttr attr)⟩) d) n := by
  induction attrs generalizing d with
  | nil => exact hd
  | cons a rest ih =>
    rw [List.foldl_cons]
    exact ih _ (hasHeight_setCol d _ n hd (by simpa using hclen))

theorem dateStep_hasHeight (time drop : Bool) (df : DataFrame) (f : String)
    (df' : DataFrame) (h : dateStep time drop df f = some df') (n : Nat)
    (hdf : HasHeight df n) : HasHeight df' n := by
  unfold dateStep at h
  cases hg : df.getCol f with
  | none => rw [hg] at h; exact absurd h (by simp)
  | some c =>
    rw [hg] at h
    replace h : (if c.dtype = Dtype.datetime then
        some (if drop = true then
          ((attrsList time).foldl (fun d attr =>
            d.setCol ⟨stripDate f ++ "_" ++ attr, attrDtype attr,
              c.vals.map (dtAttr attr)⟩) df).dropCol f
        else (attrsList time).foldl (fun d attr =>
          d.setCol ⟨stripDate f ++ "_" ++ attr, attrDtype attr,
            c.vals.map (dtAttr attr)⟩) df)
      else none) = some df' := h
    by_cases hdt : c.dtype = .datetime
    · rw [if_pos hdt] at h
      obtain rfl : _ = df' := Option.some.injEq _ _ ▸ h
      have hfold := dateAttrFold_hasHeight c (stripDate f) (attrsList time) df n hdf
        (hdf c (findCol_mem f df.cols c hg))
      cases drop with
      | true => exact hasHeight_dropCol _ f n (by simpa using hfold)
      | false => simpa using hfold
    · rw [if_neg hdt] at h
      exact absurd h (by simp)

theorem dateFold_hasHeight (time drop : Bool) (L : List String) (df df' : DataFrame)
    (h : List.foldlM (dateStep time drop) df L = some df') (n : Nat)
    (hdf : HasHeight df n) : HasHeight df' n := by
  induction L generalizing df with
  | nil =>
    simp only [List.foldlM_nil] at h
    obtain rfl : df = df' := Option.some.injEq _ _ ▸ h
    exact hdf
  | cons g rest ih =>
    rw [List.foldlM_cons] at h
    rcases Option.bind_eq_some.mp h with ⟨d₁, hstep, hrest⟩
    exact ih d₁ hrest (dateStep_hasHeight time drop df g d₁ hstep n hdf)

/-- C7: every one of the four transformation functions preserves the
row count: when the input frame has `n` rows in every column, so does
the output frame.  (The transforms act columnwise, mapping each cell at
row index `i` to row index `i`, so row order is preserved as well.) -/
theorem C7_theorem (n : Nat) :
    (∀ df ord dropf skip df',
      convert_to_categorical df ord dropf skip = some df' →
      HasHeight df n → HasHeight df' n) ∧
    (∀ df max_categories skip df' mp,
      numericalize_categories df max_categories skip = some (df', mp) →
      HasHeight df n → HasHeight df' n) ∧
    (∀ df skip, HasHeight df n →
      HasHeight (interpolate_missing_values df skip).1 n) ∧
    (∀ df feats time drop df',
      extract_date_features df feats time drop = some df' →
      HasHeight df n → HasHeight df' n) := by
  refine ⟨?_, ?_, ?_, ?_⟩
  · intro df ord dropf skip df' h hdf
    unfold convert_to_categorical at h
    cases hda : df.dropAll dropf with
    | none => rw [hda] at h; exact absurd h (by simp)
    | some d₀ =>
      rw [hda] at h
      obtain rfl : _ = df' := Option.some.injEq _ _ ▸ h
      exact convertFold_hasHeight ord skip d₀.colNames d₀ n
        (hasHeight_dropAll df dropf d₀ hda n hdf)
  · intro df max_categories skip df' mp h hdf
    exact numFold_hasHeight max_categories skip df.colNames (df, []) (df', mp) h n hdf
  · intro df skip hdf
    exact interpFold_hasHeight skip df.colNames (df, []) n hdf
  · intro df feats time drop df' h hdf
    exact dateFold_hasHeight time drop feats df df' h n hdf

unseal Rat.add Rat.mul Rat.inv in
/-- C7 witness: row count 2 is preserved by a concrete run of each of
the four transformation functions. -/
theorem C7_witness :
    convert_to_categorical wdfC7 [] [] ["k", "m", "dt"] = some wdfC7conv ∧
    HasHeight wdfC7conv 2 ∧
    numericalize_categories wdfC7 0 [] = some (wdfC7num, [("k", .coded [(0, "u")])]) ∧
    HasHeight wdfC7num 2 ∧
    (interpolate_missing_values wdfC7 []).1 = wdfC7interp ∧
    HasHeight wdfC7interp 2 ∧
    extract_date_features wdfC7 ["dt"] false true = some wdfC7date ∧
    HasHeight wdfC7date 2 := by
  have hconv : convert_to_categorical wdfC7 [] [] ["k", "m", "dt"] = some wdfC7conv := by
    decide
  have hnum : numericalize_categories wdfC7 0 [] =
      some (wdfC7num, [("k", .coded [(0, "u")])]) := by decide
  have hinterp : (interpolate_missing_values wdfC7 []).1 = wdfC7interp := by decide
  have hdate : extract_date_features wdfC7 ["dt"] false true = some wdfC7date := by
    decide
  have hh : HasHeight wdfC7 2 := by
    show ∀ c ∈ wdfC7.cols, c.vals.length = 2
    decide
  refine ⟨hconv, (C7_theorem 2).1 wdfC7 [] [] ["k", "m", "dt"] wdfC7conv hconv hh,
    hnum, (C7_theorem 2).2.1 wdfC7 0 [] wdfC7num [("k", .coded [(0, "u")])] hnum hh,
    hinterp, hinterp ▸ (C7_theorem 2).2.2.1 wdfC7 [] hh,
    hdate, (C7_theorem 2).2.2.2 wdfC7 ["dt"] false true wdfC7date hdate hh⟩

/-! ### Claim C3: median computation and interpolation -/

theorem count_filter_neg (a : ℚ) (p : ℚ → Bool) (l : List ℚ) (h : p a = false) :
    List.count a (l.filter p) = 0 :=
  List.count_eq_zero.mpr (fun hm => by
    have hp := List.of_mem_filter hm
    rw [h] at hp
    exact Bool.false_ne_true hp)

theorem medianQ_perm (l l' : List ℚ) (h : List.Perm l l') : medianQ l = medianQ l' := by
  unfold medianQ
  have hlen : l.length = l'.length := h.length_eq
  have hsort : List.insertionSort (· ≤ ·) l = List.insertionSort (· ≤ ·) l' :=
    List.eq_of_perm_of_sorted
      ((List.perm_insertionSort _ l).trans (h.trans (List.perm_insertionSort _ l').symm))
      (List.sorted_insertionSort _ l) (List.sorted_insertionSort _ l')
  rw [hlen, hsort]

theorem sorted_drop_le (s : List ℚ) (hs : s.Sorted (· ≤ ·)) (j : Nat)
    (hj : j < s.length) : ∀ x ∈ s.drop j, s[j] ≤ x := by
  intro x hx
  rcases List.mem_iff_getElem.mp hx with ⟨i, hi, rfl⟩
  rw [List.getElem_drop s]
  rcases Nat.eq_zero_or_pos i with rfl | hpos
  · simp
  · exact List.pairwise_iff_getElem.mp hs j (j + i) hj
      (by have := hi; simp at this; omega) (by omega)

theorem sorted_take_le (s : List ℚ) (hs : s.Sorted (· ≤ ·)) (j : Nat)
    (hj : j < s.length) : ∀ x ∈ s.take (j + 1), x ≤ s[j] := by
  intro x hx
  rcases List.mem_iff_getElem.mp hx with ⟨i, hi, rfl⟩
  have hi' : i < j + 1 := lt_of_lt_of_le hi (by simp)
  rw [List.getElem_take]
  rcases Nat.lt_or_ge i j with hlt | hge
  · exact List.pairwise_iff_getElem.mp hs i j (by omega) hj hlt
  · have : i = j := by omega
    subst this
    exact le_refl _

theorem medianQ_insert (l : List ℚ) (m : ℚ) (hm : medianQ l = some m) (k : ℕ) :
    medianQ (l ++ List.replicate k m) = some m := by
  rcases Nat.eq_zero_or_pos k with rfl | hk
  · simpa using hm
  unfold medianQ at hm
  by_cases hn : l.length = 0
  · rw [if_pos hn] at hm
    exact absurd hm (by simp)
  rw [if_neg hn] at hm
  set s := List.insertionSort (· ≤ ·) l with hs_def
  have hslen : s.length = l.length := (List.perm_insertionSort _ l).length_eq
  have hsort : s.Sorted (· ≤ ·) := List.sorted_insertionSort _ l
  set n := l.length with hn_def
  have hnpos : 0 < n := Nat.pos_of_ne_zero hn
  have hbidx : n / 2 < s.length := by rw [hslen]; exact Nat.div_lt_self hnpos one_lt_two
  have haidx : (n - 1) / 2 < s.length := by rw [hslen]; omega
  rw [List.getD_eq_getElem s 0 haidx, List.getD_eq_getElem s 0 hbidx] at hm
  have hm' : (s[(n - 1) / 2] + s[n / 2]) / 2 = m := Option.some.injEq _ _ ▸ hm
  have hab : s[(n - 1) / 2] ≤ s[n / 2] := by
    rcases Nat.lt_or_ge ((n - 1) / 2) (n / 2) with hlt | hge
    · exact List.pairwise_iff_getElem.mp hsort _ _ haidx hbidx hlt
    · have heq : (n - 1) / 2 = n / 2 := by omega
      exact le_of_eq (by congr 1)
  have ham : s[(n - 1) / 2] ≤ m := by
    rw [← hm']
    linarith
  have hmb : m ≤ s[n / 2] := by
    rw [← hm']
    linarith
  set A := (s.filter (fun x => decide (x < m))).length with hA
  set Cc := (s.filter (fun x => decide (x = m))).length with hC
  set B := (s.filter (fun x => decide (m < x))).length with hB
  have hAle : A ≤ n / 2 := by
    have hsplit : s.filter (fun x => decide (x < m)) =
        (s.take (n / 2)).filter (fun x => decide (x < m)) ++
        (s.drop (n / 2)).filter (fun x => decide (x < m)) := by
      conv_lhs => rw [← List.take_append_drop (n / 2) s]
      rw [List.filter_append]
    have hdropnil : (s.drop (n / 2)).filter (fun x => decide (x < m)) = [] := by
      rw [List.filter_eq_nil_iff]
      intro x hx
      have hge := sorted_drop_le s hsort (n / 2) hbidx x hx
      simp only [decide_eq_true_eq]
      exact not_lt.mpr (le_trans hmb hge)
    rw [hA, hsplit, hdropnil, List.append_nil]
    refine le_trans (List.length_filter_le _ _) ?_
    simp [List.length_take]
  have hBle : B ≤ n - 1 - (n - 1) / 2 := by
    have hsplit : s.filter (fun x => decide (m < x)) =
        (s.take ((n - 1) / 2 + 1)).filter (fun x => decide (m < x)) ++
        (s.drop ((n - 1) / 2 + 1)).filter (fun x => decide (m < x)) := by
      conv_lhs => rw [← List.take_append_drop ((n - 1) / 2 + 1) s]
      rw [List.filter_append]
    have htakenil : (s.take ((n - 1) / 2 + 1)).filter (fun x => decide (m < x)) = [] := by
      rw [List.filter_eq_nil_iff]
      intro x hx
      have hle := sorted_take_le s hsort ((n - 1) / 2) haidx x hx
      simp only [decide_eq_true_eq]
      exact not_lt.mpr (le_trans hle ham)
    rw [hB, hsplit, htakenil, List.nil_append]
    refine le_trans (List.length_filter_le _ _) ?_
    rw [List.length_drop, hslen]
    omega
  set t := s.filter (fun x => decide (x < m)) ++
    ((s.filter (fun x => decide (x = m)) ++ List.replicate k m) ++
     s.filter (fun x => decide (m < x))) with ht
  have hperm : List.Perm (l ++ List.replicate k m) t := by
    rw [List.perm_iff_count]
    intro q
    have hcl : List.count q l = List.count q s := (List.perm_insertionSort _ l).symm.count_eq q
    simp only [ht, List.count_append]
    rcases lt_trichotomy q m with hq | hq | hq
    · have h1 : List.count q (s.filter (fun x => decide (x < m))) = List.count q s :=
        List.count_filter (by simp [hq])
      have h2 : List.count q (s.filter (fun x => decide (x = m))) = 0 :=
        count_filter_neg q _ s (by simp; exact ne_of_lt hq)
      have h3 : List.count q (s.filter (fun x => decide (m < x))) = 0 :=
        count_filter_neg q _ s (by simp; exact le_of_lt hq)
      have h4 : List.count q (List.replicate k m) = 0 := by
        simp [List.count_replicate, Ne.symm (ne_of_lt hq)]
      omega
    · subst hq
      have h1 : List.count q (s.filter (fun x => decide (x < q))) = 0 :=
        count_filter_neg q _ s (by simp)
      have h2 : List.count q (s.filter (fun x => decide (x = q))) = List.count q s :=
        List.count_filter (by simp)
      have h3 : List.count q (s.filter (fun x => decide (q < x))) = 0 :=
        count_filter_neg q _ s (by simp)
      have h4 : List.count q (List.replicate k q) = k := by
        simp [List.count_replicate]
      omega
    · have h1 : List.count q (s.filter (fun x => decide (x < m))) = 0 :=
        count_filter_neg q _ s (by simp; exact le_of_lt hq)
      have h2 : List.count q (s.filter (fun x => decide (x = m))) = 0 :=
        count_filter_neg q _ s (by simp; exact ne_of_gt hq)
      have h3 : List.count q (s.filter (fun x => decide (m < x))) = List.count q s :=
        List.count_filter (by simp [hq])
      have h4 : List.count q (List.replicate k m) = 0 := by
        simp [List.count_replicate, ne_of_lt hq]
      omega
  have hsorted_t : t.Sorted (· ≤ ·) := by
    rw [ht]
    apply List.pairwise_append.mpr
    refine ⟨hsort.filter _, ?_, ?_⟩
    · apply List.pairwise_append.mpr
      refine ⟨?_, hsort.filter _, ?_⟩
      · apply List.pairwise_append.mpr
        refine ⟨hsort.filter _, List.pairwise_replicate.mpr (Or.inr (le_refl m)), ?_⟩
        intro x hx y hy
        have hxm : x = m := by simpa using List.of_mem_filter hx
        have hym : y = m := List.eq_of_mem_replicate hy
        rw [hxm, hym]
      · intro x hx y hy
        have hxm : x = m := by
          rcases List.mem_append.mp hx with hx' | hx'
          · simpa using List.of_mem_filter hx'
          · exact List.eq_of_mem_replicate hx'
        have hym : m < y := by simpa using List.of_mem_filter hy
        rw [hxm]
        exact le_of_lt hym
    · intro x hx y hy
      have hxm : x < m := by simpa using List.of_mem_filter hx
      have hym : m ≤ y := by
        rcases List.mem_append.mp hy with hy' | hy'
        · rcases List.mem_append.mp hy' with hy'' | hy''
          · have : y = m := by simpa using List.of_mem_filter hy''
            exact le_of_eq this.symm
          · exact le_of_eq (List.eq_of_mem_replicate hy'').symm
        · exact le_of_lt (by simpa using List.of_mem_filter hy')
      exact le_trans (le_of_lt hxm) hym
  have htlen : t.length = n + k := by
    rw [← hperm.length_eq]
    simp only [List.length_append, List.length_replicate]
  have ht2 : t.length = A + ((Cc + k) + B) := by
    show (s.filter (fun x => decide (x < m)) ++
      ((s.filter (fun x => decide (x = m)) ++ List.replicate k m) ++
       s.filter (fun x => decide (m < x)))).length = A + ((Cc + k) + B)
    rw [hA, hC, hB]
    simp [List.length_append, List.length_replicate]
    try omega
  have hABC : A + (Cc + k) + B = n + k := by omega
  have hmid : ∀ j, A ≤ j → j < A + (Cc + k) → t.getD j 0 = m := by
    intro j hja hjb
    show (s.filter (fun x => decide (x < m)) ++
      ((s.filter (fun x => decide (x = m)) ++ List.replicate k m) ++
       s.filter (fun x => decide (m < x)))).getD j 0 = m
    rw [List.getD_append_right _ _ _ _ (by rw [← hA]; exact hja)]
    have hsub : j - (s.filter (fun x => decide (x < m))).length <
        (s.filter (fun x => decide (x = m)) ++ List.replicate k m).length := by
      rw [← hA]
      simp only [List.length_append, List.length_replicate, ← hC]
      omega
    rw [List.getD_append _ _ _ _ hsub]
    rw [List.getD_eq_getElem _ 0 hsub]
    have hmem := List.getElem_mem hsub
    rcases List.mem_append.mp hmem with hmm | hmm
    · simpa using List.of_mem_filter hmm
    · exact List.eq_of_mem_replicate hmm
  unfold medianQ
  have hNlen : (l ++ List.replicate k m).length = n + k := by simp
  rw [if_neg (by rw [hNlen]; omega)]
  have hsorteq : List.insertionSort (· ≤ ·) (l ++ List.replicate k m) = t :=
    List.eq_of_perm_of_sorted ((List.perm_insertionSort _ _).trans hperm)
      (List.sorted_insertionSort _ _) hsorted_t
  rw [hsorteq, hNlen]
  rw [hmid ((n + k - 1) / 2) (by omega) (by omega)]
  rw [hmid ((n + k) / 2) (by omega) (by omega)]
  rw [show (m + m) / 2 = m by ring]

theorem validNumVal_cases (v : Value) (h : validNumVal v = true) :
    v = Value.na ∨ ∃ q, v = Value.num q := by
  cases v with
  | na => exact Or.inl rfl
  | num q => exact Or.inr ⟨q, rfl⟩
  | str s => exact absurd h (by simp [validNumVal])
  | bool b => exact absurd h (by simp [validNumVal])
  | date d => exact absurd h (by simp [validNumVal])

theorem numsOf_fill_perm (vals : List Value) (m : ℚ)
    (hwf : ∀ v ∈ vals, validNumVal v = true) :
    List.Perm (numsOf (fillWith (some m) vals))
      (numsOf vals ++ List.replicate (vals.count Value.na) m) := by
  induction vals with
  | nil => simp [numsOf, fillWith]
  | cons v rest ih =>
    have hwf' : ∀ x ∈ rest, validNumVal x = true :=
      fun x hx => hwf x (List.mem_cons_of_mem v hx)
    have ihr := ih hwf'
    rcases validNumVal_cases v (hwf v (List.mem_cons_self v rest)) with rfl | ⟨q, rfl⟩
    · have h1 : fillWith (some m) (Value.na :: rest) =
          Value.num m :: fillWith (some m) rest := by
        simp [fillWith]
      have h2 : numsOf (Value.num m :: fillWith (some m) rest) =
          m :: numsOf (fillWith (some m) rest) := by
        simp [numsOf, toNumQ]
      have h3 : numsOf (Value.na :: rest) = numsOf rest := by
        simp [numsOf, toNumQ]
      have h4 : (Value.na :: rest).count Value.na = rest.count Value.na + 1 := by
        simp [List.count_cons]
      rw [h1, h2, h3, h4, List.replicate_succ]
      exact List.Perm.trans (ihr.cons m) List.perm_middle.symm
    · have h1 : fillWith (some m) (Value.num q :: rest) =
          Value.num q :: fillWith (some m) rest := by
        simp [fillWith]
      have h2 : numsOf (Value.num q :: fillWith (some m) rest) =
          q :: numsOf (fillWith (some m) rest) := by
        simp [numsOf, toNumQ]
      have h3 : numsOf (Value.num q :: rest) = q :: numsOf rest := by
        simp [numsOf, toNumQ]
      have h4 : (Value.num q :: rest).count Value.na = rest.count Value.na := by
        simp [List.count_cons]
      rw [h1, h2, h3, h4, List.cons_append]
      exact ihr.cons q

theorem medianQ_filled (vals : List Value) (m : ℚ)
    (hwf : ∀ v ∈ vals, validNumVal v = true)
    (hm : medianQ (numsOf vals) = some m) :
    medianQ (numsOf (fillWith (some m) vals)) = some m := by
  rw [medianQ_perm _ _ (numsOf_fill_perm vals m hwf)]
  exact medianQ_insert (numsOf vals) m hm (vals.count Value.na)

theorem missing_ne_self (f : String) : f ++ "_missing" ≠ f := by
  intro he
  have hlen := congrArg String.length he
  simp only [String.length_append] at hlen
  have : ("_missing" : String).length = 8 := rfl
  omega

theorem interpStep_eq (skip_features : List String)
    (st : DataFrame × List (String × Option ℚ)) (g : String) (c : Column)
    (hg : st.1.getCol g = some c) :
    interpStep skip_features st g =
      if g ∉ skip_features ∧ isNumericDtype c.dtype = true then
        ((st.1.setCol ⟨g ++ "_missing", .boolean,
            c.vals.map (fun v => .bool (decide (v = .na)))⟩).setCol
          ⟨g, c.dtype, fillWith (medianQ (numsOf c.vals)) c.vals⟩,
         st.2 ++ [(g, medianQ (numsOf (fillWith (medianQ (numsOf c.vals)) c.vals)))])
      else st := by
  unfold interpStep
  rw [hg]

theorem interpStep_preserve (skip_features : List String)
    (st : DataFrame × List (String × Option ℚ)) (g f : String)
    (hfg : f ≠ g) (hmiss : (g ++ "_missing") ≠ f) :
    (interpStep skip_features st g).1.getCol f = st.1.getCol f ∧
    lookupStr f ((interpStep skip_features st g).2) = lookupStr f st.2 := by
  cases hg : st.1.getCol g with
  | none =>
    have : interpStep skip_features st g = st := by
      unfold interpStep
      rw [hg]
    rw [this]
    exact ⟨rfl, rfl⟩
  | some c =>
    rw [interpStep_eq skip_features st g c hg]
    by_cases hcond : g ∉ skip_features ∧ isNumericDtype c.dtype = true
    · rw [if_pos hcond]
      constructor
      · show ((st.1.setCol _).setCol _).getCol f = st.1.getCol f
        rw [getCol_setCol_ne _ _ f hfg, getCol_setCol_ne _ _ f (Ne.symm hmiss)]
      · exact lookupStr_append_ne st.2 g f _ hfg
    · rw [if_neg hcond]
      exact ⟨rfl, rfl⟩

theorem interpFold_preserve (skip_features : List String) (L : List String)
    (st : DataFrame × List (String × Option ℚ)) (f : String) (hf : f ∉ L)
    (hmiss : ∀ g ∈ L, (g ++ "_missing") ≠ f) :
    (L.foldl (interpStep skip_features) st).1.getCol f = st.1.getCol f ∧
    lookupStr f ((L.foldl (interpStep skip_features) st).2) = lookupStr f st.2 := by
  induction L generalizing st with
  | nil => exact ⟨rfl, rfl⟩
  | cons g rest ih =>
    have hfg : f ≠ g := fun he => hf (he ▸ List.mem_cons_self g rest)
    have hfr : f ∉ rest := fun hm => hf (List.mem_cons_of_mem g hm)
    rw [List.foldl_cons]
    have h1 := interpStep_preserve skip_features st g f hfg
      (hmiss g (List.mem_cons_self g rest))
    have h2 := ih (interpStep skip_features st g) hfr
      (fun g' hg' => hmiss g' (List.mem_cons_of_mem g hg'))
    exact ⟨h2.1.trans h1.1, h2.2.trans h1.2⟩

/-- C3: for a numeric column not in the skip set,
`interpolate_missing_values` appends a boolean `{column}_missing` column
that is true exactly at the missing rows, replaces every missing entry
with the median of the column's non-missing original values, leaves
non-missing entries unchanged, and records that same median in the
returned numeric mapper (the code computes the recorded value as the
median of the already-filled column, which provably equals the median
of the original non-missing values). -/
theorem C3_theorem (df : DataFrame) (skip_features : List String)
    (hnodup : df.colNames.Nodup)
    (f : String) (c : Column) (hc : df.getCol f = some c)
    (hdt : c.dtype = .numeric) (hskip : f ∉ skip_features)
    (hwf : ∀ v ∈ c.vals, validNumVal v = true)
    (hne : ∃ v ∈ c.vals, v ≠ Value.na)
    (hfr : ∀ g ∈ df.colNames, g ≠ f →
      (g ++ "_missing") ≠ f ∧ (g ++ "_missing") ≠ (f ++ "_missing"))
    (hmm : (f ++ "_missing") ∉ df.colNames) :
    ∃ m, medianQ (numsOf c.vals) = some m ∧
      (interpolate_missing_values df skip_features).1.getCol (f ++ "_missing") =
        some ⟨f ++ "_missing", .boolean,
          c.vals.map (fun v => .bool (decide (v = .na)))⟩ ∧
      (interpolate_missing_values df skip_features).1.getCol f =
        some ⟨f, .numeric, c.vals.map (fun v => if v = .na then .num m else v)⟩ ∧
      lookupStr f ((interpolate_missing_values df skip_features).2) = some (some m) := by
  obtain ⟨v₀, hv₀mem, hv₀ne⟩ := hne
  have hnums_ne : numsOf c.vals ≠ [] := by
    rcases validNumVal_cases v₀ (hwf v₀ hv₀mem) with rfl | ⟨q, rfl⟩
    · exact absurd rfl hv₀ne
    · intro hnil
      have hq : q ∈ numsOf c.vals :=
        List.mem_filterMap.mpr ⟨Value.num q, hv₀mem, rfl⟩
      rw [hnil] at hq
      exact absurd hq (List.not_mem_nil q)
  obtain ⟨m, hm⟩ : ∃ m, medianQ (numsOf c.vals) = some m := by
    unfold medianQ
    rw [if_neg (by simpa using hnums_ne)]
    exact ⟨_, rfl⟩
  have hfill : fillWith (medianQ (numsOf c.vals)) c.vals =
      c.vals.map (fun v => if v = .na then .num m else v) := by
    rw [hm]
    rfl
  refine ⟨m, hm, ?_⟩
  have hfmem : f ∈ df.colNames := mem_of_getCol_isSome df f (by rw [hc]; rfl)
  obtain ⟨L₁, L₂, hsplit, hf1, hf2⟩ := mem_split_nodup df.colNames f hfmem hnodup
  have hL1sub : ∀ g ∈ L₁, g ∈ df.colNames := by
    intro g hg; rw [hsplit]; exact List.mem_append.mpr (Or.inl hg)
  have hL2sub : ∀ g ∈ L₂, g ∈ df.colNames := by
    intro g hg; rw [hsplit]
    exact List.mem_append.mpr (Or.inr (List.mem_cons.mpr (Or.inr hg)))
  have hL1ne : ∀ g ∈ L₁, g ≠ f := fun g hg he => hf1 (he ▸ hg)
  have hL2ne : ∀ g ∈ L₂, g ≠ f := fun g hg he => hf2 (he ▸ hg)
  unfold interpolate_missing_values
  rw [hsplit, List.foldl_append, List.foldl_cons]
  have hpre := interpFold_preserve skip_features L₁ (df, []) f hf1
    (fun g hg => (hfr g (hL1sub g hg) (hL1ne g hg)).1)
  have hc₁ : (L₁.foldl (interpStep skip_features) (df, [])).1.getCol f = some c := by
    rw [hpre.1]; exact hc
  have hlk₁ : lookupStr f ((L₁.foldl (interpStep skip_features) (df, [])).2) = none := by
    rw [hpre.2]; rfl
  rw [interpStep_eq skip_features _ f c hc₁]
  rw [if_pos ⟨hskip, by rw [hdt]; rfl⟩]
  refine ⟨?_, ?_, ?_⟩
  · rw [(interpFold_preserve skip_features L₂ _ (f ++ "_missing")
      (fun hmem => hmm (hL2sub _ hmem))
      (fun g hg => (hfr g (hL2sub g hg) (hL2ne g hg)).2)).1]
    show (((L₁.foldl (interpStep skip_features) (df, [])).1.setCol
        ⟨f ++ "_missing", .boolean,
          c.vals.map (fun v => .bool (decide (v = .na)))⟩).setCol
      ⟨f, c.dtype, fillWith (medianQ (numsOf c.vals)) c.vals⟩).getCol
        (f ++ "_missing") = _
    rw [getCol_setCol_ne _ _ _ (missing_ne_self f)]
    exact getCol_setCol_self _ _
  · rw [(interpFold_preserve skip_features L₂ _ f hf2
      (fun g hg => (hfr g (hL2sub g hg) (hL2ne g hg)).1)).1]
    show (((L₁.foldl (interpStep skip_features) (df, [])).1.setCol
        ⟨f ++ "_missing", .boolean,
          c.vals.map (fun v => .bool (decide (v = .na)))⟩).setCol
      ⟨f, c.dtype, fillWith (medianQ (numsOf c.vals)) c.vals⟩).getCol f = _
    rw [show (⟨f, c.dtype, fillWith (medianQ (numsOf c.vals)) c.vals⟩ : Column) =
      ⟨f, .numeric, c.vals.map (fun v => if v = .na then .num m else v)⟩ from by
        rw [hdt, hfill]]
    exact getCol_setCol_self _ _
  · rw [(interpFold_preserve skip_features L₂ _ f hf2
      (fun g hg => (hfr g (hL2sub g hg) (hL2ne g hg)).1)).2]
    show lookupStr f ((L₁.foldl (interpStep skip_features) (df, [])).2 ++
      [(f, medianQ (numsOf (fillWith (medianQ (numsOf c.vals)) c.vals)))]) = _
    rw [lookupStr_append, hlk₁]
    show lookupStr f [(f, medianQ (numsOf (fillWith (medianQ (numsOf c.vals)) c.vals)))] = _
    rw [show medianQ (numsOf (fillWith (medianQ (numsOf c.vals)) c.vals)) = some m from by
      rw [hm]
      exact medianQ_filled c.vals m hwf hm]
    simp [lookupStr]

unseal Rat.add Rat.mul Rat.inv in
/-- C3 witness: concrete run on a column [1, missing, 3]; the median 2
fills the gap, the missing indicator is true exactly at row 1, and the
mapper records 2. -/
theorem C3_witness :
    medianQ (numsOf [Value.num 1, Value.na, Value.num 3]) = some 2 ∧
    (interpolate_missing_values wdfC3 []).1.getCol ("m" ++ "_missing") =
      some ⟨"m" ++ "_missing", .boolean,
        [Value.num 1, Value.na, Value.num 3].map (fun v => .bool (decide (v = .na)))⟩ ∧
    (interpolate_missing_values wdfC3 []).1.getCol "m" =
      some ⟨"m", .numeric,
        [Value.num 1, Value.na, Value.num 3].map
          (fun v => if v = .na then .num 2 else v)⟩ ∧
    lookupStr "m" ((interpolate_missing_values wdfC3 []).2) = some (some 2) := by
  obtain ⟨m, hm, h1, h2, h3⟩ := C3_theorem wdfC3 [] (by decide) "m"
    ⟨"m", .numeric, [.num 1, .na, .num 3]⟩ (by decide) (by decide) (by decide)
    (by decide) (by decide)
    (by
      intro g hg hne
      have hgm : g = "m" := by simpa [wdfC3, DataFrame.colNames] using hg
      exact absurd hgm hne)
    (by decide)
  have hcomp : medianQ (numsOf [Value.num 1, Value.na, Value.num 3]) = some 2 := by
    decide
  have hm2 : m = 2 := by
    have h := hm.symm.trans hcomp
    exact (Option.some.injEq _ _ ▸ h)
  subst hm2
  exact ⟨hcomp, h1, h2, h3⟩

/-! ### Claims C4 and C5: date feature extraction -/

theorem string_append_left_cancel (a b c : String) (h : a ++ b = a ++ c) : b = c := by
  have h2 := congrArg String.data h
  simp only [String.data_append] at h2
  exact String.ext (List.append_cancel_left h2)

theorem genName_inj (stem a b : String) (h : stem ++ "_" ++ a = stem ++ "_" ++ b) :
    a = b :=
  string_append_left_cancel (stem ++ "_") a b h

theorem attrsList_nodup (time : Bool) : (attrsList time).Nodup := by
  cases time <;> decide

theorem attr_mem_true (time : Bool) (a : String) (h : a ∈ attrsList time) :
    a ∈ attrsList true := by
  cases time with
  | true => exact h
  | false =>
    have hb : a ∈ baseAttrs := by simpa [attrsList] using h
    simp [attrsList, baseAttrs] at hb ⊢
    tauto

theorem timeAttrs_mem_true (a : String) (h : a ∈ timeAttrs) : a ∈ attrsList true := by
  simp [timeAttrs] at h
  simp [attrsList, timeAttrs, baseAttrs]
  tauto

theorem timeAttrs_not_mem_false (a : String) (h : a ∈ timeAttrs) :
    a ∉ attrsList false := by
  simp [timeAttrs] at h
  rcases h with rfl | rfl | rfl <;> decide

theorem dateDerived_getCol_other (stem : String) (vals : List Value)
    (attrs : List String) (d : DataFrame) (nm : String)
    (h : ∀ a ∈ attrs, (stem ++ "_" ++ a) ≠ nm) :
    (dateDerived stem vals attrs d).getCol nm = d.getCol nm := by
  induction attrs generalizing d with
  | nil => rfl
  | cons a rest ih =>
    show (dateDerived stem vals rest (d.setCol _)).getCol nm = _
    rw [ih _ (fun b hb => h b (List.mem_cons_of_mem a hb))]
    exact getCol_setCol_ne d _ nm (Ne.symm (h a (List.mem_cons_self a rest)))

theorem dateDerived_getCol_mem (stem : String) (vals : List Value)
    (attrs : List String) (d : DataFrame) (attr : String)
    (hnd : attrs.Nodup) (hmem : attr ∈ attrs) :
    (dateDerived stem vals attrs d).getCol (stem ++ "_" ++ attr) =
      some ⟨stem ++ "_" ++ attr, attrDtype attr, vals.map (dtAttr attr)⟩ := by
  induction attrs generalizing d with
  | nil => exact absurd hmem (List.not_mem_nil attr)
  | cons a rest ih =>
    have hnd' := List.nodup_cons.mp hnd
    rcases List.mem_cons.mp hmem with rfl | hmem'
    · show (dateDerived stem vals rest (d.setCol _)).getCol _ = _
      rw [dateDerived_getCol_other stem vals rest _ _
        (fun b hb he => hnd'.1 ((genName_inj stem b attr he) ▸ hb))]
      exact getCol_setCol_self d _
    · show (dateDerived stem vals rest (d.setCol _)).getCol _ = _
      exact ih _ hnd'.2 hmem'

theorem dateStep_eq (time drop : Bool) (df : DataFrame) (f : String) (c : Column)
    (hc : df.getCol f = some c) (hdt : c.dtype = .datetime) :
    dateStep time drop df f =
      some (if drop then
        (dateDerived (stripDate f) c.vals (attrsList time) df).dropCol f
      else dateDerived (stripDate f) c.vals (attrsList time) df) := by
  unfold dateStep
  rw [hc]
  show (if c.dtype = Dtype.datetime then
      some (if drop then
        (dateDerived (stripDate f) c.vals (attrsList time) df).dropCol f
      else dateDerived (stripDate f) c.vals (attrsList time) df)
    else none) = _
  rw [if_pos hdt]

theorem dateStep_preserve (time drop : Bool) (df : DataFrame) (g : String)
    (df' : DataFrame) (h : dateStep time drop df g = some df') (nm : String)
    (hne : nm ≠ g)
    (hgen : ∀ a ∈ attrsList time, (stripDate g ++ "_" ++ a) ≠ nm) :
    df'.getCol nm = df.getCol nm := by
  unfold dateStep at h
  cases hg : df.getCol g with
  | none => rw [hg] at h; exact absurd h (by simp)
  | some c =>
    rw [hg] at h
    replace h : (if c.dtype = Dtype.datetime then
        some (if drop then
          (dateDerived (stripDate g) c.vals (attrsList time) df).dropCol g
        else dateDerived (stripDate g) c.vals (attrsList time) df)
      else none) = some df' := h
    by_cases hdt : c.dtype = Dtype.datetime
    · rw [if_pos hdt] at h
      obtain rfl : _ = df' := Option.some.injEq _ _ ▸ h
      cases drop with
      | true =>
        rw [if_pos rfl]
        rw [getCol_dropCol_ne _ g nm hne]
        exact dateDerived_getCol_other _ _ _ _ _ hgen
      | false =>
        rw [if_neg (by simp)]
        exact dateDerived_getCol_other _ _ _ _ _ hgen
    · rw [if_neg hdt] at h
      exact absurd h (by simp)

theorem dateFold_preserve (time drop : Bool) (L : List String) (df df' : DataFrame)
    (h : List.foldlM (dateStep time drop) df L = some df') (nm : String)
    (hnm : nm ∉ L)
    (hgen : ∀ g ∈ L, ∀ a ∈ attrsList time, (stripDate g ++ "_" ++ a) ≠ nm) :
    df'.getCol nm = df.getCol nm := by
  induction L generalizing df with
  | nil =>
    simp only [List.foldlM_nil] at h
    obtain rfl : df = df' := Option.some.injEq _ _ ▸ h
    rfl
  | cons g rest ih =>
    rw [List.foldlM_cons] at h
    rcases Option.bind_eq_some.mp h with ⟨d₁, hstep, hrest⟩
    have hne : nm ≠ g := fun he => hnm (he ▸ List.mem_cons_self g rest)
    have hr : nm ∉ rest := fun hm => hnm (List.mem_cons_of_mem g hm)
    rw [ih d₁ hrest hr (fun g' hg' => hgen g' (List.mem_cons_of_mem g hg'))]
    exact dateStep_preserve time drop df g d₁ hstep nm hne
      (hgen g (List.mem_cons_self g rest))

theorem extract_split (df : DataFrame) (date_features : List String) (time drop : Bool)
    (df' : DataFrame)
    (h : extract_date_features df date_features time drop = some df')
    (hnodup : date_features.Nodup) (f : String) (hf : f ∈ date_features) :
    ∃ L₁ L₂ d₁ d₂, date_features = L₁ ++ f :: L₂ ∧ f ∉ L₁ ∧ f ∉ L₂ ∧
      List.foldlM (dateStep time drop) df L₁ = some d₁ ∧
      dateStep time drop d₁ f = some d₂ ∧
      List.foldlM (dateStep time drop) d₂ L₂ = some df' := by
  obtain ⟨L₁, L₂, hsplit, hf1, hf2⟩ := mem_split_nodup date_features f hf hnodup
  unfold extract_date_features at h
  rw [hsplit, List.foldlM_append] at h
  rcases Option.bind_eq_some.mp h with ⟨d₁, h1, h23⟩
  rw [List.foldlM_cons] at h23
  rcases Option.bind_eq_some.mp h23 with ⟨d₂, h2, h3⟩
  exact ⟨L₁, L₂, d₁, d₂, hsplit, hf1, hf2, h1, h2, h3⟩

/-- Master lemma for `extract_date_features` on one processed feature:
derived columns, their values, the time extension, and the drop flag. -/
theorem extract_master (df : DataFrame) (date_features : List String)
    (time drop : Bool) (df' : DataFrame)
    (h : extract_date_features df date_features time drop = some df')
    (hnodup : date_features.Nodup)
    (f : String) (c : Column) (hf : f ∈ date_features)
    (hc : df.getCol f = some c) (hdt : c.dtype = .datetime)
    (hfresh1 : ∀ g ∈ date_features, ∀ a ∈ attrsList true,
      (stripDate g ++ "_" ++ a) ≠ f)
    (hcross : ∀ g ∈ date_features, g ≠ f → ∀ a1 ∈ attrsList true,
      ∀ a2 ∈ attrsList true, (stripDate g ++ "_" ++ a2) ≠ (stripDate f ++ "_" ++ a1))
    (hdropg : ∀ g ∈ date_features, ∀ a ∈ attrsList true,
      (stripDate f ++ "_" ++ a) ≠ g)
    (htpre : ∀ a ∈ timeAttrs, (stripDate f ++ "_" ++ a) ∉ df.colNames) :
    (∀ attr ∈ attrsList time, df'.getCol (stripDate f ++ "_" ++ attr) =
      some ⟨stripDate f ++ "_" ++ attr, attrDtype attr, c.vals.map (dtAttr attr)⟩) ∧
    (time = false → ∀ attr ∈ timeAttrs,
      df'.getCol (stripDate f ++ "_" ++ attr) = none) ∧
    (drop = true → df'.getCol f = none) ∧
    (drop = false → df'.getCol f = some c) := by
  obtain ⟨L₁, L₂, d₁, d₂, hsplit, hf1, hf2, h1, h2, h3⟩ :=
    extract_split df date_features time drop df' h hnodup f hf
  have hL1sub : ∀ g ∈ L₁, g ∈ date_features := by
    intro g hg; rw [hsplit]; exact List.mem_append.mpr (Or.inl hg)
  have hL2sub : ∀ g ∈ L₂, g ∈ date_features := by
    intro g hg; rw [hsplit]
    exact List.mem_append.mpr (Or.inr (List.mem_cons.mpr (Or.inr hg)))
  have hL1ne : ∀ g ∈ L₁, g ≠ f := fun g hg he => hf1 (he ▸ hg)
  have hL2ne : ∀ g ∈ L₂, g ≠ f := fun g hg he => hf2 (he ▸ hg)
  have hc₁ : d₁.getCol f = some c := by
    rw [dateFold_preserve time drop L₁ df d₁ h1 f hf1
      (fun g hg a ha => hfresh1 g (hL1sub g hg) a (attr_mem_true time a ha))]
    exact hc
  rw [dateStep_eq time drop d₁ f c hc₁ hdt] at h2
  obtain rfl : _ = d₂ := Option.some.injEq _ _ ▸ h2
  refine ⟨?_, ?_, ?_, ?_⟩
  · intro attr hattr
    have hattr' : attr ∈ attrsList true := attr_mem_true time attr hattr
    have hd₂ : (if drop then
        (dateDerived (stripDate f) c.vals (attrsList time) d₁).dropCol f
      else dateDerived (stripDate f) c.vals (attrsList time) d₁).getCol
        (stripDate f ++ "_" ++ attr) =
        some ⟨stripDate f ++ "_" ++ attr, attrDtype attr, c.vals.map (dtAttr attr)⟩ := by
      cases drop with
      | true =>
        rw [if_pos rfl]
        rw [getCol_dropCol_ne _ f _ (hfresh1 f hf attr hattr')]
        exact dateDerived_getCol_mem _ _ _ _ attr (attrsList_nodup time) hattr
      | false =>
        rw [if_neg (by simp)]
        exact dateDerived_getCol_mem _ _ _ _ attr (attrsList_nodup time) hattr
    rw [dateFold_preserve time drop L₂ _ df' h3 (stripDate f ++ "_" ++ attr)
      (fun hm => hdropg _ (hL2sub _ hm) attr hattr' rfl)
      (fun g hg a ha => hcross g (hL2sub g hg) (hL2ne g hg) attr hattr' a
        (attr_mem_true time a ha))]
    exact hd₂
  · intro htime attr hattr
    subst htime
    have hattr' : attr ∈ attrsList true := timeAttrs_mem_true attr hattr
    have hnone₀ : df.getCol (stripDate f ++ "_" ++ attr) = none :=
      getCol_eq_none_of_not_mem df _ (htpre attr hattr)
    have hnone₁ : d₁.getCol (stripDate f ++ "_" ++ attr) = none := by
      rw [dateFold_preserve false drop L₁ df d₁ h1 (stripDate f ++ "_" ++ attr)
        (fun hm => hdropg _ (hL1sub _ hm) attr hattr' rfl)
        (fun g hg a ha => hcross g (hL1sub g hg) (hL1ne g hg) attr hattr' a
          (attr_mem_true false a ha))]
      exact hnone₀
    have hd₂ : (if drop then
        (dateDerived (stripDate f) c.vals (attrsList false) d₁).dropCol f
      else dateDerived (stripDate f) c.vals (attrsList false) d₁).getCol
        (stripDate f ++ "_" ++ attr) = none := by
      have hder : (dateDerived (stripDate f) c.vals (attrsList false) d₁).getCol
          (stripDate f ++ "_" ++ attr) = none := by
        rw [dateDerived_getCol_other _ _ _ _ _
          (fun a ha he => timeAttrs_not_mem_false attr hattr
            ((genName_inj (stripDate f) a attr he) ▸ ha))]
        exact hnone₁
      cases drop with
      | true =>
        rw [if_pos rfl]
        rw [getCol_dropCol_ne _ f _ (hfresh1 f hf attr hattr')]
        exact hder
      | false =>
        rw [if_neg (by simp)]
        exact hder
    rw [dateFold_preserve false drop L₂ _ df' h3 (stripDate f ++ "_" ++ attr)
      (fun hm => hdropg _ (hL2sub _ hm) attr hattr' rfl)
      (fun g hg a ha => hcross g (hL2sub g hg) (hL2ne g hg) attr hattr' a
        (attr_mem_true false a ha))]
    exact hd₂
  · intro hdrop
    subst hdrop
    have hd₂ : ((dateDerived (stripDate f) c.vals (attrsList time) d₁).dropCol f).getCol
        f = none := getCol_dropCol_self _ f
    rw [dateFold_preserve time true L₂ _ df' h3 f hf2
      (fun g hg a ha => hfresh1 g (hL2sub g hg) a (attr_mem_true time a ha))]
    simpa using hd₂
  · intro hdrop
    subst hdrop
    have hd₂ : (dateDerived (stripDate f) c.vals (attrsList time) d₁).getCol f =
        some c := by
      rw [dateDerived_getCol_other _ _ _ _ _
        (fun a ha => hfresh1 f hf a (attr_mem_true time a ha))]
      exact hc₁
    rw [dateFold_preserve time false L₂ _ df' h3 f hf2
      (fun g hg a ha => hfresh1 g (hL2sub g hg) a (attr_mem_true time a ha))]
    simpa using hd₂

/-- C4 counterexample: the regex `[Dd]ate$` does not strip the
upper-case suffix `DATE`, so a column named "SaleDATE" yields derived
columns prefixed "SaleDATE_", not "Sale_", refuting "any casing of the
trailing date is removed". -/
theorem C4_counterexample :
    extract_date_features wdfC4 ["SaleDATE"] false true = some wdfC4out ∧
    wdfC4out.getCol "SaleDATE_year" = some ⟨"SaleDATE_year", .numeric, [.num 2000]⟩ ∧
    wdfC4out.getCol "Sale_year" = none ∧
    stripDate "SaleDATE" = "SaleDATE" :=
  ⟨by decide, by decide, by decide, by decide⟩

/-- C4 (amended): the stem prefixing the derived columns is the original
column name with a trailing "date" or "Date" suffix removed — only the
first letter of the suffix is case-insensitive, so "SaleDate" gives
stem "Sale", "date" gives the empty stem, and "SaleDATE" is kept
unchanged. -/
theorem C4_theorem (df : DataFrame) (date_features : List String)
    (time drop : Bool) (df' : DataFrame)
    (h : extract_date_features df date_features time drop = some df')
    (hnodup : date_features.Nodup)
    (f : String) (c : Column) (hf : f ∈ date_features)
    (hc : df.getCol f = some c) (hdt : c.dtype = .datetime)
    (hfresh1 : ∀ g ∈ date_features, ∀ a ∈ attrsList true,
      (stripDate g ++ "_" ++ a) ≠ f)
    (hcross : ∀ g ∈ date_features, g ≠ f → ∀ a1 ∈ attrsList true,
      ∀ a2 ∈ attrsList true, (stripDate g ++ "_" ++ a2) ≠ (stripDate f ++ "_" ++ a1))
    (hdropg : ∀ g ∈ date_features, ∀ a ∈ attrsList true,
      (stripDate f ++ "_" ++ a) ≠ g)
    (htpre : ∀ a ∈ timeAttrs, (stripDate f ++ "_" ++ a) ∉ df.colNames) :
    (∀ attr ∈ attrsList time, df'.getCol (stripDate f ++ "_" ++ attr) =
      some ⟨stripDate f ++ "_" ++ attr, attrDtype attr, c.vals.map (dtAttr attr)⟩) ∧
    stripDate "SaleDate" = "Sale" ∧ stripDate "date" = "" ∧
    stripDate "SaleDATE" = "SaleDATE" :=
  ⟨(extract_master df date_features time drop df' h hnodup f c hf hc hdt
      hfresh1 hcross hdropg htpre).1,
    by decide, by decide, by decide⟩

/-- C4 witness: a concrete run on the column "SaleDate" whose derived
year column is prefixed "Sale_". -/
theorem C4_witness :
    (stripDate "SaleDate" ++ "_" ++ "year") = "Sale_year" ∧
    extract_date_features wdfC5 ["SaleDate"] false true = some wdfC5out ∧
    wdfC5out.getCol (stripDate "SaleDate" ++ "_" ++ "year") =
      some ⟨stripDate "SaleDate" ++ "_" ++ "year", attrDtype "year",
        [Value.date wdtVal].map (dtAttr "year")⟩ := by
  have hrun : extract_date_features wdfC5 ["SaleDate"] false true = some wdfC5out := by
    decide
  refine ⟨by decide, hrun, ?_⟩
  exact (C4_theorem wdfC5 ["SaleDate"] false true wdfC5out hrun (by decide) "SaleDate"
    ⟨"SaleDate", .datetime, [.date wdtVal]⟩ (by decide) (by decide) (by decide)
    (by decide)
    (by
      intro g hg hne
      have hgs : g = "SaleDate" := by simpa using hg
      exact absurd hgs hne)
    (by decide) (by decide)).1 "year" (by decide)

/-- C5: for every processed date column, one derived column
`{stem}_{attribute}` holding the attribute's values is present for each
attribute of the fixed set, extended with hour, minute, second exactly
when the time flag is true (when it is false those columns are absent);
the original column is removed from the output if and only if the drop
flag is true. -/
theorem C5_theorem (df : DataFrame) (date_features : List String)
    (time drop : Bool) (df' : DataFrame)
    (h : extract_date_features df date_features time drop = some df')
    (hnodup : date_features.Nodup)
    (f : String) (c : Column) (hf : f ∈ date_features)
    (hc : df.getCol f = some c) (hdt : c.dtype = .datetime)
    (hfresh1 : ∀ g ∈ date_features, ∀ a ∈ attrsList true,
      (stripDate g ++ "_" ++ a) ≠ f)
    (hcross : ∀ g ∈ date_features, g ≠ f → ∀ a1 ∈ attrsList true,
      ∀ a2 ∈ attrsList true, (stripDate g ++ "_" ++ a2) ≠ (stripDate f ++ "_" ++ a1))
    (hdropg : ∀ g ∈ date_features, ∀ a ∈ attrsList true,
      (stripDate f ++ "_" ++ a) ≠ g)
    (htpre : ∀ a ∈ timeAttrs, (stripDate f ++ "_" ++ a) ∉ df.colNames) :
    (∀ attr ∈ attrsList time, df'.getCol (stripDate f ++ "_" ++ attr) =
      some ⟨stripDate f ++ "_" ++ attr, attrDtype attr, c.vals.map (dtAttr attr)⟩) ∧
    (time = false → ∀ attr ∈ timeAttrs,
      df'.getCol (stripDate f ++ "_" ++ attr) = none) ∧
    (drop = true → df'.getCol f = none) ∧
    (drop = false → df'.getCol f = some c) :=
  extract_master df date_features time drop df' h hnodup f c hf hc hdt
    hfresh1 hcross hdropg htpre

/-- C5 witness: a concrete run with time = false and drop = true; the
day column is derived, the hour column is absent, and the original
column is dropped. -/
theorem C5_witness :
    extract_date_features wdfC5 ["SaleDate"] false true = some wdfC5out ∧
    wdfC5out.getCol (stripDate "SaleDate" ++ "_" ++ "day") =
      some ⟨stripDate "SaleDate" ++ "_" ++ "day", attrDtype "day",
        [Value.date wdtVal].map (dtAttr "day")⟩ ∧
    wdfC5out.getCol (stripDate "SaleDate" ++ "_" ++ "hour") = none ∧
    wdfC5out.getCol "SaleDate" = none := by
  have hrun : extract_date_features wdfC5 ["SaleDate"] false true = some wdfC5out := by
    decide
  have hm := C5_theorem wdfC5 ["SaleDate"] false true wdfC5out hrun (by decide)
    "SaleDate" ⟨"SaleDate", .datetime, [.date wdtVal]⟩ (by decide) (by decide)
    (by decide) (by decide)
    (by
      intro g hg hne
      have hgs : g = "SaleDate" := by simpa using hg
      exact absurd hgs hne)
    (by decide) (by decide)
  exact ⟨hrun, hm.1 "day" (by decide), hm.2.1 rfl "hour" (by decide), hm.2.2.1 rfl⟩
